import Mathlib

/-!
# Verification of the PySyft Function Secret Sharing core

Shallow embedding of `src/syft/frameworks/torch/mpc/fss.py`.

Conventions of the embedding:
* the source stores bit strings as `torch.uint8` tensors, one byte per bit;
  we model them as `List Nat` whose entries are 0/1;
* all `uint8` tensor arithmetic wraps modulo 256; where the source result is
  a `uint8` scalar we reduce modulo 256 explicitly;
* the PRG expanders `G`/`H` hash, with SHA3-256, the byte string
  `str(seed.tolist()).encode()`; both the hash and the Python encoding are
  implemented below so that concrete runs are fully computable;
* `DPF`/`DIF` key generation and evaluation are parameterised by the
  expander function (`prg`), mirroring the source's use of the module-level
  `G`/`H`; the concrete instantiations `Gfun`/`Hfun` recover the source
  exactly;
* randomness (the hidden point `alpha`, the two root seeds drawn by
  `randbit`) is passed explicitly, so `keygen` is the deterministic function
  of its random coins that the source computes.
-/

/-- Bit strings: one `Nat` (holding a byte value, for bits 0/1) per entry,
mirroring the `uint8` tensors of the source. -/
abbrev BV := List Nat

/-- Elementwise xor (`^` on uint8 tensors). -/
def xorv (a b : BV) : BV := List.zipWith (fun x y => x ^^^ y) a b

/-- Scalar (0/1) times vector (`t * CW` in the source). -/
def smul (t : Nat) (v : BV) : BV := v.map (fun x => t * x)

/-- All-zero bit string. -/
def zeros (k : Nat) : BV := List.replicate k 0

/-! ## SHA3-256 (FIPS 202), the hash used by the source through `hashlib` -/

/-- Left-rotation of a 64-bit lane. -/
def rotl64 (x k : Nat) : Nat :=
  Nat.lor (Nat.mod (Nat.shiftLeft x k) 18446744073709551616) (Nat.shiftRight x (64 - k))

/-- Bitwise complement of a 64-bit lane. -/
def not64 (x : Nat) : Nat := Nat.xor x 18446744073709551615

/-- The 24 Keccak round constants. -/
def keccakRC : List Nat :=
  [1, 32898, 9223372036854808714,
   9223372039002292224, 32907, 2147483649,
   9223372039002292353, 9223372036854808585, 138,
   136, 2147516425, 2147483658,
   2147516555, 9223372036854775947, 9223372036854808713,
   9223372036854808579, 9223372036854808578, 9223372036854775936,
   32778, 9223372039002259466, 9223372039002292353,
   9223372036854808704, 2147483649, 9223372039002292232]

/-- Keccak-f[1600] state: 25 lanes, lane `(x, y)` in field `a(x + 5*y)`. -/
structure KSt where
  a0 : Nat
  a1 : Nat
  a2 : Nat
  a3 : Nat
  a4 : Nat
  a5 : Nat
  a6 : Nat
  a7 : Nat
  a8 : Nat
  a9 : Nat
  a10 : Nat
  a11 : Nat
  a12 : Nat
  a13 : Nat
  a14 : Nat
  a15 : Nat
  a16 : Nat
  a17 : Nat
  a18 : Nat
  a19 : Nat
  a20 : Nat
  a21 : Nat
  a22 : Nat
  a23 : Nat
  a24 : Nat

/-- One Keccak-f[1600] round. -/
def keccakRound (rc : Nat) (s : KSt) : KSt :=
    let c0 := (Nat.xor (Nat.xor (Nat.xor (Nat.xor s.a0 s.a5) s.a10) s.a15) s.a20)
    let c1 := (Nat.xor (Nat.xor (Nat.xor (Nat.xor s.a1 s.a6) s.a11) s.a16) s.a21)
    let c2 := (Nat.xor (Nat.xor (Nat.xor (Nat.xor s.a2 s.a7) s.a12) s.a17) s.a22)
    let c3 := (Nat.xor (Nat.xor (Nat.xor (Nat.xor s.a3 s.a8) s.a13) s.a18) s.a23)
    let c4 := (Nat.xor (Nat.xor (Nat.xor (Nat.xor s.a4 s.a9) s.a14) s.a19) s.a24)
    let d0 := Nat.xor c4 (rotl64 c1 1)
    let d1 := Nat.xor c0 (rotl64 c2 1)
    let d2 := Nat.xor c1 (rotl64 c3 1)
    let d3 := Nat.xor c2 (rotl64 c4 1)
    let d4 := Nat.xor c3 (rotl64 c0 1)
    let e0 := (Nat.xor s.a0 d0)
    let e1 := (Nat.xor s.a1 d1)
    let e2 := (Nat.xor s.a2 d2)
    let e3 := (Nat.xor s.a3 d3)
    let e4 := (Nat.xor s.a4 d4)
    let e5 := (Nat.xor s.a5 d0)
    let e6 := (Nat.xor s.a6 d1)
    let e7 := (Nat.xor s.a7 d2)
    let e8 := (Nat.xor s.a8 d3)
    let e9 := (Nat.xor s.a9 d4)
    let e10 := (Nat.xor s.a10 d0)
    let e11 := (Nat.xor s.a11 d1)
    let e12 := (Nat.xor s.a12 d2)
    let e13 := (Nat.xor s.a13 d3)
    let e14 := (Nat.xor s.a14 d4)
    let e15 := (Nat.xor s.a15 d0)
    let e16 := (Nat.xor s.a16 d1)
    let e17 := (Nat.xor s.a17 d2)
    let e18 := (Nat.xor s.a18 d3)
    let e19 := (Nat.xor s.a19 d4)
    let e20 := (Nat.xor s.a20 d0)
    let e21 := (Nat.xor s.a21 d1)
    let e22 := (Nat.xor s.a22 d2)
    let e23 := (Nat.xor s.a23 d3)
    let e24 := (Nat.xor s.a24 d4)
    let b0 := e0
    let b10 := rotl64 e1 1
    let b20 := rotl64 e2 62
    let b5 := rotl64 e3 28
    let b15 := rotl64 e4 27
    let b16 := rotl64 e5 36
    let b1 := rotl64 e6 44
    let b11 := rotl64 e7 6
    let b21 := rotl64 e8 55
    let b6 := rotl64 e9 20
    let b7 := rotl64 e10 3
    let b17 := rotl64 e11 10
    let b2 := rotl64 e12 43
    let b12 := rotl64 e13 25
    let b22 := rotl64 e14 39
    let b23 := rotl64 e15 41
    let b8 := rotl64 e16 45
    let b18 := rotl64 e17 15
    let b3 := rotl64 e18 21
    let b13 := rotl64 e19 8
    let b14 := rotl64 e20 18
    let b24 := rotl64 e21 2
    let b9 := rotl64 e22 61
    let b19 := rotl64 e23 56
    let b4 := rotl64 e24 14
    let f0 := (Nat.xor (Nat.xor b0 (Nat.land (not64 b1) (b2))) rc)
    let f1 := (Nat.xor b1 (Nat.land (not64 b2) (b3)))
    let f2 := (Nat.xor b2 (Nat.land (not64 b3) (b4)))
    let f3 := (Nat.xor b3 (Nat.land (not64 b4) (b0)))
    let f4 := (Nat.xor b4 (Nat.land (not64 b0) (b1)))
    let f5 := (Nat.xor b5 (Nat.land (not64 b6) (b7)))
    let f6 := (Nat.xor b6 (Nat.land (not64 b7) (b8)))
    let f7 := (Nat.xor b7 (Nat.land (not64 b8) (b9)))
    let f8 := (Nat.xor b8 (Nat.land (not64 b9) (b5)))
    let f9 := (Nat.xor b9 (Nat.land (not64 b5) (b6)))
    let f10 := (Nat.xor b10 (Nat.land (not64 b11) (b12)))
    let f11 := (Nat.xor b11 (Nat.land (not64 b12) (b13)))
    let f12 := (Nat.xor b12 (Nat.land (not64 b13) (b14)))
    let f13 := (Nat.xor b13 (Nat.land (not64 b14) (b10)))
    let f14 := (Nat.xor b14 (Nat.land (not64 b10) (b11)))
    let f15 := (Nat.xor b15 (Nat.land (not64 b16) (b17)))
    let f16 := (Nat.xor b16 (Nat.land (not64 b17) (b18)))
    let f17 := (Nat.xor b17 (Nat.land (not64 b18) (b19)))
    let f18 := (Nat.xor b18 (Nat.land (not64 b19) (b15)))
    let f19 := (Nat.xor b19 (Nat.land (not64 b15) (b16)))
    let f20 := (Nat.xor b20 (Nat.land (not64 b21) (b22)))
    let f21 := (Nat.xor b21 (Nat.land (not64 b22) (b23)))
    let f22 := (Nat.xor b22 (Nat.land (not64 b23) (b24)))
    let f23 := (Nat.xor b23 (Nat.land (not64 b24) (b20)))
    let f24 := (Nat.xor b24 (Nat.land (not64 b20) (b21)))
    KSt.mk f0 f1 f2 f3 f4 f5 f6 f7 f8 f9 f10 f11 f12 f13 f14 f15 f16 f17 f18 f19 f20 f21 f22 f23 f24

/-- Keccak-f[1600]: the 24 rounds. -/
def keccakF (s : KSt) : KSt := keccakRC.foldl (fun s rc => keccakRound rc s) s

/-- Reverse the byte order of a 64-bit lane (big-endian reading of the 8
little-endian lane bytes, and conversely). -/
def byteswap64 (v : Nat) : Nat :=
  Nat.lor (Nat.shiftLeft (Nat.land v 255) 56)
   (Nat.lor (Nat.shiftLeft (Nat.land (Nat.shiftRight v 8) 255) 48)
    (Nat.lor (Nat.shiftLeft (Nat.land (Nat.shiftRight v 16) 255) 40)
     (Nat.lor (Nat.shiftLeft (Nat.land (Nat.shiftRight v 24) 255) 32)
      (Nat.lor (Nat.shiftLeft (Nat.land (Nat.shiftRight v 32) 255) 24)
       (Nat.lor (Nat.shiftLeft (Nat.land (Nat.shiftRight v 40) 255) 16)
        (Nat.lor (Nat.shiftLeft (Nat.land (Nat.shiftRight v 48) 255) 8)
         (Nat.land (Nat.shiftRight v 56) 255)))))))

/-- Absorb the `j`-th 136-byte block of a message packed big-endian into a
single `Nat` of `totalLen` bytes, then permute.  The 17 rate lanes read
their 8 bytes little-endian as in FIPS 202. -/
def absorbBlock (padded totalLen j : Nat) (s : KSt) : KSt :=
  let lane := fun i =>
    byteswap64 (Nat.land (Nat.shiftRight padded (8 * (totalLen - 136 * j - 8 * (i + 1)))) 18446744073709551615)
  keccakF (KSt.mk
    (Nat.xor s.a0 (lane 0)) (Nat.xor s.a1 (lane 1)) (Nat.xor s.a2 (lane 2))
    (Nat.xor s.a3 (lane 3)) (Nat.xor s.a4 (lane 4)) (Nat.xor s.a5 (lane 5))
    (Nat.xor s.a6 (lane 6)) (Nat.xor s.a7 (lane 7)) (Nat.xor s.a8 (lane 8))
    (Nat.xor s.a9 (lane 9)) (Nat.xor s.a10 (lane 10)) (Nat.xor s.a11 (lane 11))
    (Nat.xor s.a12 (lane 12)) (Nat.xor s.a13 (lane 13)) (Nat.xor s.a14 (lane 14))
    (Nat.xor s.a15 (lane 15)) (Nat.xor s.a16 (lane 16))
    s.a17 s.a18 s.a19 s.a20 s.a21 s.a22 s.a23 s.a24)

/-- SHA3-256 of a byte string given as its big-endian packed value `val` and
its length `len`; the result is the digest read as a big-endian integer,
that is, exactly `int.from_bytes(hashlib.sha3_256(msg).digest(), "big")`.
Multi-rate padding: suffix `0x06`, zero fill, final bit `0x80`. -/
def sha3Nat (len val : Nat) : Nat :=
  let p := 136 - len % 136
  let padded := if p = 1 then val * 256 + 0x86
                else (((val * 256 + 0x06) <<< (8 * (p - 2))) * 256) + 0x80
  let total := len + p
  let final := (List.range (total / 136)).foldl
    (fun s j => absorbBlock padded total j s) (KSt.mk 0 0 0 0 0 0 0 0 0 0 0 0 0 0 0 0 0 0 0 0 0 0 0 0 0)
  ((byteswap64 final.a0 * 18446744073709551616 + byteswap64 final.a1) * 18446744073709551616
    + byteswap64 final.a2) * 18446744073709551616 + byteswap64 final.a3

/-! ## The PRG front end of the source: seed encoding and bit extraction -/

/-- Length of the Python byte string `str(seed.tolist()).encode()`:
`"[b0, b1, ..., bk]"` for single-digit entries. -/
def encLen : BV → Nat
  | [] => 2
  | _ :: xs => 3 + 3 * xs.length

/-- Big-endian packed value of the Python byte string
`str(seed.tolist()).encode()`: byte 91 is `[`, 93 is `]`, 44 is `,`,
32 is a space and `48 + e` the digit of a single-digit entry `e`. -/
def encVal : BV → Nat
  | [] => 91 * 256 + 93
  | x :: xs =>
    (xs.foldl (fun acc e => acc * 16777216 + (44 * 65536 + 32 * 256 + (48 + e)))
      (91 * 256 + (48 + x))) * 256 + 93

/-- Number of binary digits of `n` (0 for 0), fuel-bounded recursion. -/
def bitLenAux : Nat → Nat → Nat
  | 0, _ => 0
  | fuel + 1, n => if n = 0 then 0 else bitLenAux fuel (n / 2) + 1

def bitLen (n : Nat) : Nat := bitLenAux n n

/-- `bin(n)[2:]` : the binary digits of `n`, MSB first, no leading zeros,
and `[0]` for 0. -/
def natBinDigits (n : Nat) : BV :=
  if n = 0 then [0]
  else (List.range (bitLen n)).map (fun i => n >>> (bitLen n - 1 - i) &&& 1)

/-- The digest of a seed as the big-endian integer the source computes:
`int.from_bytes(sha3_256(str(seed.tolist()).encode()).digest(), "big")`. -/
def seedDigest (seed : BV) : Nat := sha3Nat (encLen seed) (encVal seed)

/-- The digit string both `G` and `H` slice: `bin(seedDigest(seed))[2:]`. -/
def Gdigits (seed : BV) : BV := natBinDigits (seedDigest seed)

/-- The 256 bits of a digest `d < 2^256`, MSB first, with leading zeros:
the "leading bits of the digest" in the claimed reading. -/
def digestBits (d : Nat) : BV := (List.range 256).map (fun i => d >>> (255 - i) &&& 1)

/-- The body of the source's `G` after its `assert`: the first `2*(lam+1)`
digits. -/
def Gfun (lam : Nat) (seed : BV) : BV := (Gdigits seed).take (2 * (lam + 1))

/-- The body of the source's `H` after its `assert`: the first
`2 + 2*(lam+1)` digits. -/
def Hfun (lam : Nat) (seed : BV) : BV := (Gdigits seed).take (2 + 2 * (lam + 1))

/-- Source `G`: asserts `len(seed) == λ`, then returns the sliced digits.
The failing assert is modelled as `none`. -/
def G (lam : Nat) (seed : BV) : Option BV :=
  if seed.length = lam then some (Gfun lam seed) else none

/-- Source `H`: asserts `len(seed) == λ`, then returns the sliced digits. -/
def H (lam : Nat) (seed : BV) : Option BV :=
  if seed.length = lam then some (Hfun lam seed) else none

/-! ## Bit algebra of the FSS layer -/

/-- `th.flip(2 ** th.arange(λ), (0,)).to(th.uint8)`: the MSB-first power
table cast to uint8.  The int64 powers `2^k` overflow to values whose uint8
cast is `2^k % 256` for every `k` (0 for `k ≥ 8`), so the cast table is
`2^(λ-1-i) % 256` at index `i`. -/
def bit_pow_lambda (lam : Nat) : List Nat :=
  (List.range lam).map (fun i => 2 ^ (lam - 1 - i) % 256)

/-- Source `Convert(bits)`: `bits.dot(bit_pow_lambda)` where both operands
are uint8 tensors, so the accumulation is carried modulo 256. -/
def Convert (lam : Nat) (bits : BV) : Nat :=
  (List.zipWith (fun b p => b * p) bits (bit_pow_lambda lam)).sum % 256

/-- `th.flip(2 ** th.arange(n), (0,))` (int64, exact for `n ≤ 62`). -/
def bit_pow_n (n : Nat) : List Nat := (List.range n).map (fun i => 2 ^ (n - 1 - i))

/-- Source `bit_decomposition(x)`: `((x & bit_pow_n) > 0)` as 0/1 entries,
MSB first. -/
def bit_decomposition (n x : Nat) : BV :=
  (bit_pow_n n).map (fun p => if x &&& p ≠ 0 then 1 else 0)

/-- `τ.reshape(2, w)[r]`: row `r` of a `2×w` reshape of a `2w`-vector. -/
def row2 (w r : Nat) (v : BV) : BV := (v.drop (r * w)).take w

/-- Source `TruthTableDPF(s, α_i)`: a `2×(λ+1)` zero table whose row `α_i`
is `s ∥ 1`, flattened row-major. -/
def TruthTableDPF (lam : Nat) (s : BV) (ai : Nat) : BV :=
  if ai = 0 then (s ++ [1]) ++ zeros (lam + 1) else zeros (lam + 1) ++ (s ++ [1])

/-- Source `TruthTableDIF(s, α_i)`: column-wise concatenation of a `2×1`
leaf table (row `1-α_i` holds `α_i`) and a `2×(λ+1)` next-level table (row
`α_i` holds `s ∥ 1`), flattened row-major: each row is its leaf bit followed
by its `λ+1` next-level bits. -/
def TruthTableDIF (lam : Nat) (s : BV) (ai : Nat) : BV :=
  if ai = 0 then ([0] ++ (s ++ [1])) ++ ([0] ++ zeros (lam + 1))
  else ([1] ++ zeros (lam + 1)) ++ ([0] ++ (s ++ [1]))

/-! ## DPF — Distributed Point Function (equality)

`keygen` is the loop of `DPF.keygen` with the hidden point `alpha` and the
two root seeds (the source's `randint` / `randbit` draws) passed in
explicitly; `prg` abstracts the module-level `G`.  State per level:
the two seeds `s[i][b]` and the two control bits `t[i][b]`. -/

namespace DPF

/-- The correction word of one `DPF.keygen` level, from the two PRG
expansions `g0 = G(s[i][0])`, `g1 = G(s[i][1])` and the bit `α_i`:
`s_rand = (sL_0 ^ sL_1) * α_i + (sR_0 ^ sR_1) * (1 - α_i)` with the split
`(sL, _, sR, _) = split(g, [λ, 1, λ, 1])`, and
`CW_i = TruthTableDPF(s_rand, α_i) ^ g0 ^ g1`. -/
def sRand (lam : Nat) (g0 g1 : BV) (ai : Nat) : BV :=
  List.zipWith (fun a b => a + b)
    (smul ai (xorv (g0.take lam) (g1.take lam)))
    (smul (1 - ai) (xorv ((g0.drop (lam + 1)).take lam) ((g1.drop (lam + 1)).take lam)))

def cwStep (lam : Nat) (g0 g1 : BV) (ai : Nat) : BV :=
  xorv (xorv (TruthTableDPF lam (sRand lam g0 g1 ai) ai) g0) g1

/-- One party's state update: `τ = g ^ (t * CW_i)`, reshaped `2×(λ+1)`,
row `r` split into `(s, t)` of widths `(λ, 1)`. -/
def stateStep (lam : Nat) (g : BV) (t : Nat) (CWi : BV) (r : Nat) : BV × Nat :=
  let tau := row2 (lam + 1) r (xorv g (smul t CWi))
  (tau.take lam, (tau.drop lam).headD 0)

/-- The per-level loop of `DPF.keygen`: returns the correction words and
the final `(s[n][0], s[n][1], t[n][0], t[n][1])`. -/
def keygenLevels (lam : Nat) (prg : BV → BV) :
    List Nat → BV → BV → Nat → Nat → List BV × BV × BV × Nat × Nat
  | [], s0, s1, t0, t1 => ([], s0, s1, t0, t1)
  | ai :: rest, s0, s1, t0, t1 =>
    let CWi := cwStep lam (prg s0) (prg s1) ai
    let st0 := stateStep lam (prg s0) t0 CWi ai
    let st1 := stateStep lam (prg s1) t1 CWi ai
    let next := keygenLevels lam prg rest st0.1 st1.1 st0.2 st1.2
    (CWi :: next.1, next.2)

/-- `DPF.keygen`: returns `(alpha, s[0][0], s[0][1], CW, CW_n)`.  `CW_n` is
computed in uint8 arithmetic (`beta.to(th.uint8)`, uint8 `Convert`), with
`(-1) ** t` acting as negation mod 256; we compute it in `ℤ` and reduce. -/
def keygen (lam n : Nat) (prg : BV → BV) (alpha : Nat) (s00 s01 : BV) :
    Nat × BV × BV × List BV × Nat :=
  let r := keygenLevels lam prg (bit_decomposition n alpha) s00 s01 0 1
  let CW_n := ((((-1 : Int) ^ r.2.2.2.2) *
    (1 - (Convert lam r.2.1 : Int) + (Convert lam r.2.2.1 : Int))) % 256).toNat
  (alpha, s00, s01, r.1, CW_n)

/-- The per-level loop of `DPF.eval`. -/
def evalLevels (lam : Nat) (prg : BV → BV) :
    List Nat → List BV → BV → Nat → BV × Nat
  | [], _, s, t => (s, t)
  | _ :: _, [], s, t => (s, t)
  | xi :: rest, CWi :: cwrest, s, t =>
    let st := stateStep lam (prg s) t CWi xi
    evalLevels lam prg rest cwrest st.1 st.2

/-- `DPF.eval(b, x, s_0, CW, CW_n)`.  The leaf value
`Convert(s[n]) + t[n] * CW[n]` is uint8 (mod 256); the outer
`(-1) ** b` factor is the int32 sign of the party's tensor `b`. -/
def eval (lam n : Nat) (prg : BV → BV) (b x : Nat) (s0 : BV) (CW : List BV)
    (CW_n : Nat) : Int :=
  let fin := evalLevels lam prg (bit_decomposition n x) CW s0 b
  ((-1 : Int) ^ b) * (((Convert lam fin.1 + fin.2 * CW_n) % 256 : Nat) : Int)

end DPF

/-! ## DIF — Distributed Interval Function (comparison `≤`) -/

namespace DIF

/-- The correction word of one `DIF.keygen` level: the PRG output has width
`2(λ+2)` and is split `(σ_leaf, t_leaf, sL, tL, sR, tR)` of widths
`(1, 1, λ, 1, λ, 1)`; `CW_i = TruthTableDIF(s_rand, α_i) ^ h0 ^ h1`. -/
def sRand (lam : Nat) (h0 h1 : BV) (ai : Nat) : BV :=
  List.zipWith (fun a b => a + b)
    (smul ai (xorv ((h0.drop 2).take lam) ((h1.drop 2).take lam)))
    (smul (1 - ai) (xorv ((h0.drop (3 + lam)).take lam) ((h1.drop (3 + lam)).take lam)))

def cwStep (lam : Nat) (h0 h1 : BV) (ai : Nat) : BV :=
  xorv (xorv (TruthTableDIF lam (sRand lam h0 h1 ai) ai) h0) h1

/-- One party's state update: `τ = h ^ (t * CW_i)`, reshaped `2×(λ+2)`,
row `r` split into `(σ_leaf, s, t)` of widths `(1, λ, 1)`. -/
def stateStep (lam : Nat) (h : BV) (t : Nat) (CWi : BV) (r : Nat) : Nat × BV × Nat :=
  let tau := row2 (lam + 2) r (xorv h (smul t CWi))
  (tau.headD 0, (tau.drop 1).take lam, (tau.drop (1 + lam)).headD 0)

/-- The per-level loop of `DIF.keygen` (the per-level `σ_leaf` is dropped
by the keygen loop). -/
def keygenLevels (lam : Nat) (prg : BV → BV) :
    List Nat → BV → BV → Nat → Nat → List BV × BV × BV × Nat × Nat
  | [], s0, s1, t0, t1 => ([], s0, s1, t0, t1)
  | ai :: rest, s0, s1, t0, t1 =>
    let CWi := cwStep lam (prg s0) (prg s1) ai
    let st0 := stateStep lam (prg s0) t0 CWi ai
    let st1 := stateStep lam (prg s1) t1 CWi ai
    let next := keygenLevels lam prg rest st0.2.1 st1.2.1 st0.2.2 st1.2.2
    (CWi :: next.1, next.2)

/-- `DIF.keygen`: returns `(alpha, s[0][0], s[0][1], CW)`. -/
def keygen (lam n : Nat) (prg : BV → BV) (alpha : Nat) (s00 s01 : BV) :
    Nat × BV × BV × List BV :=
  let r := keygenLevels lam prg (bit_decomposition n alpha) s00 s01 0 1
  (alpha, s00, s01, r.1)

/-- The per-level loop of `DIF.eval`: collects the leaf bits `σ_leaf`
(`FnOutput[i]`) and the final control bit `t[n]`. -/
def evalLevels (lam : Nat) (prg : BV → BV) :
    List Nat → List BV → BV → Nat → List Nat × Nat
  | [], _, _, t => ([], t)
  | _ :: _, [], _, t => ([], t)
  | xi :: rest, CWi :: cwrest, s, t =>
    let st := stateStep lam (prg s) t CWi xi
    let next := evalLevels lam prg rest cwrest st.2.1 st.2.2
    (st.1 :: next.1, next.2)

/-- `DIF.eval(b, x, s_0, CW)`: `FnOutput.sum() % 2` over the `n` leaf bits
and the final `t[n]`. -/
def eval (lam n : Nat) (prg : BV → BV) (b x : Nat) (s0 : BV) (CW : List BV) : Nat :=
  let r := evalLevels lam prg (bit_decomposition n x) CW s0 b
  (r.1.sum + r.2) % 2

end DIF

/-! ## The primitive store (L5) and the online protocol (L4) -/

/-- The three FIFO queues of a party's crypto store, polymorphic in the
stored primitive. -/
structure CryptoStore (P : Type) where
  fss_eq : List P
  fss_comp : List P
  xor_add_couple : List P

/-- The three queue selectors of `get_keys`. -/
inductive OpType where
  | eq
  | comp
  | xor_add

/-- The queue `{"eq": .fss_eq, "comp": .fss_comp, "xor_add":
.xor_add_couple}[type_op]`. -/
def queueOf {P : Type} (t : OpType) (st : CryptoStore P) : List P :=
  match t with
  | .eq => st.fss_eq
  | .comp => st.fss_comp
  | .xor_add => st.xor_add_couple

/-- Replace the selected queue. -/
def setQueue {P : Type} (t : OpType) (q : List P) (st : CryptoStore P) : CryptoStore P :=
  match t with
  | .eq => { st with fss_eq := q }
  | .comp => { st with fss_comp := q }
  | .xor_add => { st with xor_add_couple := q }

/-- The error raised by `get_keys` on an empty queue. -/
inductive FSSError where
  | emptyCryptoPrimitiveStore

/-- Source `get_keys(worker, type_op, remove)`: `pop(0)` or `[0]` on the
selected queue; an `IndexError` (empty queue) becomes
`EmptyCryptoPrimitiveStoreError`.  The store is returned alongside the
result (Python mutates `primitive_stack` in place only on a successful
`pop`). -/
def get_keys {P : Type} (st : CryptoStore P) (t : OpType) (remove : Bool) :
    Except FSSError P × CryptoStore P :=
  match queueOf t st with
  | [] => (.error .emptyCryptoPrimitiveStore, st)
  | p :: rest => (.ok p, if remove then setQueue t rest st else st)

/-- An `fss_eq`/`fss_comp` primitive `(α_share, s_0, *CW)`. -/
structure FSSPrim where
  alpha : Int
  s0 : BV
  CW : List BV
  CW_n : Nat

/-- Source `mask_builder(x1, x2, type_op)`: peeks (`remove=False`) the head
primitive and returns `(x1 - x2) + alpha`. -/
def mask_builder (st : CryptoStore FSSPrim) (x1 x2 : Int) (t : OpType) :
    Except FSSError Int × CryptoStore FSSPrim :=
  let r := get_keys st t false
  match r.1 with
  | .error e => (.error e, r.2)
  | .ok p => (.ok (x1 - x2 + p.alpha), r.2)

/-- Source `xor_add_convert_1(x)`: `x ^ xor_share`. -/
def xor_add_convert_1 (x xor_share : Nat) : Nat := x ^^^ xor_share

/-- Source `xor_add_convert_2(b, x)`: `add_share * (1 - 2 * x) + x * b`. -/
def xor_add_convert_2 (b : Nat) (x : Nat) (add_share : Int) : Int :=
  add_share * (1 - 2 * (x : Int)) + (x : Int) * (b : Int)

/-- The `type_op = "comp"` data flow of `fss_op` between two parties, at the
level of a single element: round 1 (`mask_builder` on each party and
reconstruction `sum(shares) % 2**n` of the masked value), round 2
(`DIF.eval` on each party via `comp_eval_plan`), round 3 (`xor_add_convert_1`,
xor-reconstruction of the masked bit, `xor_add_convert_2`), and the final
additive reconstruction of the result shares modulo `2^n`.  Keys come from
`DIF.keygen` on hidden threshold `alpha`; each party holds an additive share
`alphaShare` of `alpha`. -/
def fss_comp_reconstruct (lam n : Nat) (prg : BV → BV)
    (alpha : Nat) (s00 s01 : BV)
    (alphaShare0 alphaShare1 : Int)
    (x10 x11 x20 x21 : Int)
    (xor0 xor1 : Nat) (add0 add1 : Int) : Int :=
  let keys := DIF.keygen lam n prg alpha s00 s01
  let share0 := x10 - x20 + alphaShare0
  let share1 := x11 - x21 + alphaShare1
  let mask_value := ((share0 + share1) % (2 ^ n : Int)).toNat
  let r0 := DIF.eval lam n prg 0 mask_value s00 keys.2.2.2
  let r1 := DIF.eval lam n prg 1 mask_value s01 keys.2.2.2
  let y0 := xor_add_convert_1 r0 xor0
  let y1 := xor_add_convert_1 r1 xor1
  let masked_value := y0 ^^^ y1
  let out0 := xor_add_convert_2 0 masked_value add0
  let out1 := xor_add_convert_2 1 masked_value add1
  (out0 + out1) % (2 ^ n : Int)


/-! ## Bit-string toolkit lemmas -/

theorem xorv_nil_right (a : BV) : xorv a [] = [] := by simp [xorv]

theorem xorv_cons (x y : Nat) (xs ys : BV) :
    xorv (x :: xs) (y :: ys) = (x ^^^ y) :: xorv xs ys := rfl

theorem zeros_succ (k : Nat) : zeros (k + 1) = 0 :: zeros k := rfl

theorem length_xorv (a b : BV) : (xorv a b).length = min a.length b.length :=
  List.length_zipWith _ _ _

theorem length_smul (t : Nat) (v : BV) : (smul t v).length = v.length := by simp [smul]

theorem length_zeros (k : Nat) : (zeros k).length = k := by simp [zeros]

theorem length_row2 (w r : Nat) (v : BV) :
    (row2 w r v).length = min w (v.length - r * w) := by
  simp [row2]

theorem xorv_comm (a b : BV) : xorv a b = xorv b a := by
  induction a generalizing b with
  | nil => cases b <;> rfl
  | cons x xs ih =>
    cases b with
    | nil => rfl
    | cons y ys => rw [xorv_cons, xorv_cons, Nat.xor_comm, ih]

theorem xorv_assoc (a b c : BV) : xorv (xorv a b) c = xorv a (xorv b c) := by
  induction a generalizing b c with
  | nil => cases b <;> cases c <;> rfl
  | cons x xs ih =>
    cases b with
    | nil => rfl
    | cons y ys =>
      cases c with
      | nil => simp [xorv]
      | cons z zs => rw [xorv_cons, xorv_cons, xorv_cons, xorv_cons, Nat.xor_assoc, ih]

theorem xorv_zeros_right (v : BV) (k : Nat) (h : v.length ≤ k) : xorv v (zeros k) = v := by
  induction v generalizing k with
  | nil => simp [xorv]
  | cons x xs ih =>
    cases k with
    | zero => simp at h
    | succ k =>
      rw [zeros_succ, xorv_cons, Nat.xor_zero, ih]
      simpa using h

theorem xorv_self (v : BV) : xorv v v = zeros v.length := by
  induction v with
  | nil => rfl
  | cons x xs ih => rw [xorv_cons, Nat.xor_self, List.length_cons, zeros_succ, ih]

theorem xorv_cancel (a b : BV) (h : b.length ≤ a.length) : xorv a (xorv a b) = b := by
  rw [← xorv_assoc, xorv_self, xorv_comm (zeros a.length) b,
    xorv_zeros_right b _ (by simpa using h)]

theorem eq_of_xorv_zeros (a b : BV) (hlen : a.length = b.length)
    (h : xorv a b = zeros a.length) : a = b := by
  induction a generalizing b with
  | nil => cases b with
    | nil => rfl
    | cons y ys => simp at hlen
  | cons x xs ih =>
    cases b with
    | nil => simp at hlen
    | cons y ys =>
      rw [xorv_cons, List.length_cons, zeros_succ] at h
      have h1 := List.head_eq_of_cons_eq h
      have h2 := List.tail_eq_of_cons_eq h
      rw [Nat.xor_eq_zero.mp h1, ih ys (by simpa using hlen) h2]

theorem take_xorv (k : Nat) (a b : BV) : (xorv a b).take k = xorv (a.take k) (b.take k) :=
  List.take_zipWith

theorem drop_xorv (k : Nat) (a b : BV) : (xorv a b).drop k = xorv (a.drop k) (b.drop k) :=
  List.drop_zipWith

theorem row2_xorv (w r : Nat) (a b : BV) :
    row2 w r (xorv a b) = xorv (row2 w r a) (row2 w r b) := by
  simp [row2, take_xorv, drop_xorv]

theorem headD_xorv (a b : BV) (ha : a ≠ []) (hb : b ≠ []) :
    (xorv a b).headD 0 = (a.headD 0) ^^^ (b.headD 0) := by
  cases a with
  | nil => exact absurd rfl ha
  | cons x xs =>
    cases b with
    | nil => exact absurd rfl hb
    | cons y ys => rfl

/-- Entries of a bit string are 0/1. -/
def isBits (v : BV) : Prop := ∀ x ∈ v, x ≤ 1

theorem isBits_zeros (k : Nat) : isBits (zeros k) := by
  intro x hx
  have : x = 0 := List.eq_of_mem_replicate (by simpa [zeros] using hx)
  omega

theorem isBits_take (k : Nat) {v : BV} (h : isBits v) : isBits (v.take k) :=
  fun x hx => h x (List.take_subset _ _ hx)

theorem isBits_drop (k : Nat) {v : BV} (h : isBits v) : isBits (v.drop k) :=
  fun x hx => h x (List.drop_subset _ _ hx)

theorem isBits_append {a b : BV} (ha : isBits a) (hb : isBits b) : isBits (a ++ b) := by
  intro x hx
  rcases List.mem_append.mp hx with h | h
  · exact ha x h
  · exact hb x h

theorem xor_le_one {a b : Nat} (ha : a ≤ 1) (hb : b ≤ 1) : a ^^^ b ≤ 1 := by
  interval_cases a <;> interval_cases b <;> decide

theorem isBits_xorv {a b : BV} (ha : isBits a) (hb : isBits b) : isBits (xorv a b) := by
  induction a generalizing b with
  | nil => intro x hx; simp [xorv] at hx
  | cons x xs ih =>
    cases b with
    | nil => intro y hy; simp [xorv] at hy
    | cons y ys =>
      intro z hz
      rw [xorv_cons] at hz
      rcases List.mem_cons.mp hz with h | h
      · subst h
        exact xor_le_one (ha x (List.mem_cons_self x xs)) (hb y (List.mem_cons_self y ys))
      · exact ih (fun u hu => ha u (List.mem_cons_of_mem _ hu))
          (fun u hu => hb u (List.mem_cons_of_mem _ hu)) z h

theorem isBits_row2 (w r : Nat) {v : BV} (h : isBits v) : isBits (row2 w r v) :=
  isBits_take _ (isBits_drop _ h)

theorem isBits_cons {x : Nat} {v : BV} (hx : x ≤ 1) (h : isBits v) : isBits (x :: v) := by
  intro y hy
  rcases List.mem_cons.mp hy with h' | h'
  · omega
  · exact h y h'

theorem headD_le_one {v : BV} (h : isBits v) : v.headD 0 ≤ 1 := by
  cases v with
  | nil => simp
  | cons x xs => exact h x (List.mem_cons_self x xs)

theorem bit_eq_cases {t : Nat} (h : t ≤ 1) : t = 0 ∨ t = 1 := by omega

theorem xor_bits_eq_one {t0 t1 : Nat} (h0 : t0 ≤ 1) (h1 : t1 ≤ 1)
    (h : t0 ^^^ t1 = 1) : (t0 = 0 ∧ t1 = 1) ∨ (t0 = 1 ∧ t1 = 0) := by
  interval_cases t0 <;> interval_cases t1 <;> simp_all

/-! ## Row-extraction and scalar-blend lemmas -/

theorem row2_append_zero (w : Nat) (xs ys : BV) (h : xs.length = w) :
    row2 w 0 (xs ++ ys) = xs := by
  simp only [row2, Nat.zero_mul, List.drop_zero]
  rw [← h, List.take_left]

theorem row2_append_one (w : Nat) (xs ys : BV) (h : xs.length = w) (h2 : ys.length = w) :
    row2 w 1 (xs ++ ys) = ys := by
  have hd : (xs ++ ys).drop (1 * w) = ys := by rw [Nat.one_mul, ← h, List.drop_left]
  simp only [row2]
  rw [hd, ← h2, List.take_length]

theorem take_zeros (n k : Nat) : (zeros k).take n = zeros (min n k) := by
  simp [zeros, List.take_replicate]

theorem smul_zero_eq (v : BV) : smul 0 v = zeros v.length := by
  induction v with
  | nil => rfl
  | cons x xs ih =>
    simp only [smul, List.map_cons, Nat.zero_mul, List.length_cons, zeros_succ] at *
    rw [ih]

theorem smul_one_eq (v : BV) : smul 1 v = v := by
  simp [smul]

theorem isBits_smul {t : Nat} {v : BV} (ht : t ≤ 1) (h : isBits v) : isBits (smul t v) := by
  intro x hx
  rcases List.mem_map.mp hx with ⟨y, hy, rfl⟩
  have hy1 := h y hy
  calc t * y ≤ 1 * 1 := Nat.mul_le_mul ht hy1
  _ = 1 := by norm_num

theorem addv_zeros_left (v : BV) (k : Nat) (h : v.length ≤ k) :
    List.zipWith (fun a b => a + b) (zeros k) v = v := by
  induction v generalizing k with
  | nil => simp
  | cons x xs ih =>
    cases k with
    | zero => simp at h
    | succ k =>
      rw [zeros_succ]
      simp only [List.zipWith_cons_cons, Nat.zero_add]
      rw [ih _ (by simpa using h)]

theorem addv_zeros_right (v : BV) (k : Nat) (h : v.length ≤ k) :
    List.zipWith (fun a b => a + b) v (zeros k) = v := by
  induction v generalizing k with
  | nil => simp
  | cons x xs ih =>
    cases k with
    | zero => simp at h
    | succ k =>
      rw [zeros_succ]
      simp only [List.zipWith_cons_cons, Nat.add_zero]
      rw [ih _ (by simpa using h)]

/-! ## DPF step lemmas -/

namespace DPF

theorem sRand_blend (lam : Nat) (g0 g1 : BV) (ai : Nat) (hai : ai ≤ 1)
    (hg0 : 2 * (lam + 1) ≤ g0.length) (hg1 : 2 * (lam + 1) ≤ g1.length) :
    sRand lam g0 g1 ai =
      if ai = 1 then xorv (g0.take lam) (g1.take lam)
      else xorv ((g0.drop (lam + 1)).take lam) ((g1.drop (lam + 1)).take lam) := by
  have hL : (xorv (g0.take lam) (g1.take lam)).length = lam := by
    rw [length_xorv]
    simp only [List.length_take]
    omega
  have hR : (xorv ((g0.drop (lam + 1)).take lam) ((g1.drop (lam + 1)).take lam)).length
      = lam := by
    rw [length_xorv]
    simp only [List.length_take, List.length_drop]
    omega
  rcases bit_eq_cases hai with h | h <;> subst h
  · rw [if_neg (by omega)]
    unfold sRand
    rw [smul_zero_eq, Nat.sub_zero, smul_one_eq, hL, addv_zeros_left _ _ (by omega)]
  · rw [if_pos rfl]
    unfold sRand
    rw [smul_one_eq, Nat.sub_self, smul_zero_eq, hR, addv_zeros_right _ _ (by omega)]

theorem length_sRand (lam : Nat) (g0 g1 : BV) (ai : Nat) (hai : ai ≤ 1)
    (hg0 : 2 * (lam + 1) ≤ g0.length) (hg1 : 2 * (lam + 1) ≤ g1.length) :
    (sRand lam g0 g1 ai).length = lam := by
  rw [sRand_blend lam g0 g1 ai hai hg0 hg1]
  split <;> (rw [length_xorv]; simp only [List.length_take, List.length_drop]; omega)

theorem isBits_sRand (lam : Nat) (g0 g1 : BV) (ai : Nat) (hai : ai ≤ 1)
    (hb0 : isBits g0) (hb1 : isBits g1)
    (hg0 : 2 * (lam + 1) ≤ g0.length) (hg1 : 2 * (lam + 1) ≤ g1.length) :
    isBits (sRand lam g0 g1 ai) := by
  rw [sRand_blend lam g0 g1 ai hai hg0 hg1]
  split
  · exact isBits_xorv (isBits_take _ hb0) (isBits_take _ hb1)
  · exact isBits_xorv (isBits_take _ (isBits_drop _ hb0)) (isBits_take _ (isBits_drop _ hb1))

theorem length_TruthTableDPF (lam ai : Nat) (s : BV) (hs : s.length = lam) :
    (TruthTableDPF lam s ai).length = 2 * (lam + 1) := by
  unfold TruthTableDPF
  split <;> simp [hs, zeros] <;> omega

theorem isBits_TruthTableDPF (lam ai : Nat) (s : BV) (hs : isBits s) :
    isBits (TruthTableDPF lam s ai) := by
  have h1 : isBits (s ++ [1]) := isBits_append hs (by intro x hx; simp at hx; omega)
  unfold TruthTableDPF
  split
  · exact isBits_append h1 (isBits_zeros _)
  · exact isBits_append (isBits_zeros _) h1

theorem length_cwStep (lam ai : Nat) (g0 g1 : BV) (hai : ai ≤ 1)
    (hg0 : g0.length = 2 * (lam + 1)) (hg1 : g1.length = 2 * (lam + 1)) :
    (cwStep lam g0 g1 ai).length = 2 * (lam + 1) := by
  unfold cwStep
  rw [length_xorv, length_xorv,
    length_TruthTableDPF lam ai _ (length_sRand lam g0 g1 ai hai (by omega) (by omega)),
    hg0, hg1]
  omega

theorem isBits_cwStep (lam ai : Nat) (g0 g1 : BV) (hai : ai ≤ 1)
    (hb0 : isBits g0) (hb1 : isBits g1)
    (hg0 : g0.length = 2 * (lam + 1)) (hg1 : g1.length = 2 * (lam + 1)) :
    isBits (cwStep lam g0 g1 ai) :=
  isBits_xorv (isBits_xorv (isBits_TruthTableDPF lam ai _
    (isBits_sRand lam g0 g1 ai hai hb0 hb1 (by omega) (by omega))) hb0) hb1

theorem tau_xor (lam ai t0 t1 : Nat) (g0 g1 : BV) (hai : ai ≤ 1)
    (ht0 : t0 ≤ 1) (ht1 : t1 ≤ 1) (hx : t0 ^^^ t1 = 1)
    (hg0 : g0.length = 2 * (lam + 1)) (hg1 : g1.length = 2 * (lam + 1)) :
    xorv (xorv g0 (smul t0 (cwStep lam g0 g1 ai)))
         (xorv g1 (smul t1 (cwStep lam g0 g1 ai)))
      = TruthTableDPF lam (sRand lam g0 g1 ai) ai := by
  have hTT : (TruthTableDPF lam (sRand lam g0 g1 ai) ai).length = 2 * (lam + 1) :=
    length_TruthTableDPF lam ai _ (length_sRand lam g0 g1 ai hai (by omega) (by omega))
  have hCW : (cwStep lam g0 g1 ai).length = 2 * (lam + 1) :=
    length_cwStep lam ai g0 g1 hai hg0 hg1
  rcases xor_bits_eq_one ht0 ht1 hx with ⟨rfl, rfl⟩ | ⟨rfl, rfl⟩
  · rw [smul_zero_eq, hCW, xorv_zeros_right _ _ (by omega), smul_one_eq]
    show xorv g0 (xorv g1 (cwStep lam g0 g1 ai)) = _
    unfold cwStep
    rw [xorv_comm (xorv (TruthTableDPF lam (sRand lam g0 g1 ai) ai) g0) g1,
      xorv_cancel g1 _ (by rw [length_xorv, hTT, hg0, hg1]; omega),
      xorv_comm (TruthTableDPF lam (sRand lam g0 g1 ai) ai) g0,
      xorv_cancel g0 _ (by omega)]
  · rw [smul_zero_eq, hCW, xorv_zeros_right _ _ (by omega), smul_one_eq]
    show xorv (xorv g0 (cwStep lam g0 g1 ai)) g1 = _
    unfold cwStep
    rw [xorv_comm (TruthTableDPF lam (sRand lam g0 g1 ai) ai) g0,
      xorv_assoc g0 (TruthTableDPF lam (sRand lam g0 g1 ai) ai) g1,
      xorv_cancel g0 _ (by rw [length_xorv, hTT, hg1]; omega),
      xorv_assoc (TruthTableDPF lam (sRand lam g0 g1 ai) ai) g1 g1,
      xorv_self g1, xorv_zeros_right _ _ (by omega)]

end DPF

theorem drop_append_len (k : Nat) (xs ys : BV) (h : xs.length = k) :
    (xs ++ ys).drop k = ys := by
  rw [← h, List.drop_left]

theorem row2_TruthTableDPF (lam r ai : Nat) (s : BV) (hs : s.length = lam)
    (hr : r ≤ 1) (hai : ai ≤ 1) :
    row2 (lam + 1) r (TruthTableDPF lam s ai) =
      if r = ai then s ++ [1] else zeros (lam + 1) := by
  have hlen1 : (s ++ [1]).length = lam + 1 := by simp [hs]
  have hlenz : (zeros (lam + 1)).length = lam + 1 := length_zeros _
  rcases bit_eq_cases hr with hr' | hr' <;> rcases bit_eq_cases hai with ha' | ha' <;>
    subst hr' <;> subst ha'
  · rw [TruthTableDPF, if_pos rfl, if_pos rfl, row2_append_zero _ _ _ hlen1]
  · rw [TruthTableDPF, if_neg (by omega), if_neg (by omega),
      row2_append_zero _ _ _ hlenz]
  · rw [TruthTableDPF, if_pos rfl, if_neg (by omega),
      row2_append_one _ _ _ hlen1 hlenz]
  · rw [TruthTableDPF, if_neg (by omega), if_pos rfl,
      row2_append_one _ _ _ hlenz hlen1]

namespace DPF

theorem length_tau (lam r t : Nat) (g cw : BV) (hr : r ≤ 1)
    (hg : g.length = 2 * (lam + 1)) (hcw : cw.length = 2 * (lam + 1)) :
    (row2 (lam + 1) r (xorv g (smul t cw))).length = lam + 1 := by
  rw [length_row2, length_xorv, length_smul, hg, hcw]
  rcases bit_eq_cases hr with h | h <;> subst h <;> omega

theorem stateStep_onpath (lam ai t0 t1 : Nat) (g0 g1 : BV) (hai : ai ≤ 1)
    (ht0 : t0 ≤ 1) (ht1 : t1 ≤ 1) (hx : t0 ^^^ t1 = 1)
    (hb0 : isBits g0) (hb1 : isBits g1)
    (hg0 : g0.length = 2 * (lam + 1)) (hg1 : g1.length = 2 * (lam + 1)) :
    (stateStep lam g0 t0 (cwStep lam g0 g1 ai) ai).2 ≤ 1 ∧
    (stateStep lam g1 t1 (cwStep lam g0 g1 ai) ai).2 ≤ 1 ∧
    ((stateStep lam g0 t0 (cwStep lam g0 g1 ai) ai).2 ^^^
     (stateStep lam g1 t1 (cwStep lam g0 g1 ai) ai).2) = 1 := by
  have hcwlen := length_cwStep lam ai g0 g1 hai hg0 hg1
  have hcwbits := isBits_cwStep lam ai g0 g1 hai hb0 hb1 hg0 hg1
  have hsrlen := length_sRand lam g0 g1 ai hai (by omega) (by omega)
  have htau0 : (row2 (lam + 1) ai (xorv g0 (smul t0 (cwStep lam g0 g1 ai)))).length
      = lam + 1 := length_tau lam ai t0 _ _ hai hg0 hcwlen
  have htau1 : (row2 (lam + 1) ai (xorv g1 (smul t1 (cwStep lam g0 g1 ai)))).length
      = lam + 1 := length_tau lam ai t1 _ _ hai hg1 hcwlen
  have hbt0 : isBits (row2 (lam + 1) ai (xorv g0 (smul t0 (cwStep lam g0 g1 ai)))) :=
    isBits_row2 _ _ (isBits_xorv hb0 (isBits_smul ht0 hcwbits))
  have hbt1 : isBits (row2 (lam + 1) ai (xorv g1 (smul t1 (cwStep lam g0 g1 ai)))) :=
    isBits_row2 _ _ (isBits_xorv hb1 (isBits_smul ht1 hcwbits))
  have hkey : xorv (row2 (lam + 1) ai (xorv g0 (smul t0 (cwStep lam g0 g1 ai))))
      (row2 (lam + 1) ai (xorv g1 (smul t1 (cwStep lam g0 g1 ai))))
      = sRand lam g0 g1 ai ++ [1] := by
    rw [← row2_xorv, tau_xor lam ai t0 t1 g0 g1 hai ht0 ht1 hx hg0 hg1,
      row2_TruthTableDPF lam ai ai _ hsrlen hai hai, if_pos rfl]
  refine ⟨headD_le_one (isBits_drop _ hbt0), headD_le_one (isBits_drop _ hbt1), ?_⟩
  show ((row2 (lam + 1) ai (xorv g0 (smul t0 (cwStep lam g0 g1 ai)))).drop lam).headD 0 ^^^
       ((row2 (lam + 1) ai (xorv g1 (smul t1 (cwStep lam g0 g1 ai)))).drop lam).headD 0 = 1
  rw [← headD_xorv _ _ (by intro hcon; have := congrArg List.length hcon; simp [htau0] at this)
      (by intro hcon; have := congrArg List.length hcon; simp [htau1] at this),
    ← drop_xorv, hkey, drop_append_len lam _ _ hsrlen]
  rfl

theorem stateStep_offpath (lam ai r t0 t1 : Nat) (g0 g1 : BV) (hai : ai ≤ 1)
    (hr : r ≤ 1) (hne : r ≠ ai)
    (ht0 : t0 ≤ 1) (ht1 : t1 ≤ 1) (hx : t0 ^^^ t1 = 1)
    (hg0 : g0.length = 2 * (lam + 1)) (hg1 : g1.length = 2 * (lam + 1)) :
    stateStep lam g0 t0 (cwStep lam g0 g1 ai) r =
    stateStep lam g1 t1 (cwStep lam g0 g1 ai) r := by
  have hcwlen := length_cwStep lam ai g0 g1 hai hg0 hg1
  have hsrlen := length_sRand lam g0 g1 ai hai (by omega) (by omega)
  have htau0 : (row2 (lam + 1) r (xorv g0 (smul t0 (cwStep lam g0 g1 ai)))).length
      = lam + 1 := length_tau lam r t0 _ _ hr hg0 hcwlen
  have htau1 : (row2 (lam + 1) r (xorv g1 (smul t1 (cwStep lam g0 g1 ai)))).length
      = lam + 1 := length_tau lam r t1 _ _ hr hg1 hcwlen
  have hkey : xorv (row2 (lam + 1) r (xorv g0 (smul t0 (cwStep lam g0 g1 ai))))
      (row2 (lam + 1) r (xorv g1 (smul t1 (cwStep lam g0 g1 ai))))
      = zeros (lam + 1) := by
    rw [← row2_xorv, tau_xor lam ai t0 t1 g0 g1 hai ht0 ht1 hx hg0 hg1,
      row2_TruthTableDPF lam r ai _ hsrlen hr hai, if_neg hne]
  have htaueq : row2 (lam + 1) r (xorv g0 (smul t0 (cwStep lam g0 g1 ai)))
      = row2 (lam + 1) r (xorv g1 (smul t1 (cwStep lam g0 g1 ai))) :=
    eq_of_xorv_zeros _ _ (htau0.trans htau1.symm) (by rw [hkey, htau0])
  unfold stateStep
  rw [htaueq]

end DPF

/-! ## bit_decomposition lemmas -/

theorem length_bit_decomposition (n x : Nat) : (bit_decomposition n x).length = n := by
  simp [bit_decomposition, bit_pow_n]

theorem isBits_bit_decomposition (n x : Nat) : isBits (bit_decomposition n x) := by
  intro b hb
  simp only [bit_decomposition, List.mem_map] at hb
  obtain ⟨p, _, rfl⟩ := hb
  split <;> omega

theorem bd_getD (n x i : Nat) (h : i < n) :
    (bit_decomposition n x).getD i 0 = if x.testBit (n - 1 - i) then 1 else 0 := by
  have hlen : i < (bit_decomposition n x).length := by rw [length_bit_decomposition]; exact h
  rw [List.getD_eq_getElem _ _ hlen]
  simp only [bit_decomposition, bit_pow_n, List.map_map, List.getElem_map, List.getElem_range]
  have hpow : 0 < 2 ^ (n - 1 - i) := Nat.pos_pow_of_pos _ (by norm_num)
  by_cases ht : x.testBit (n - 1 - i)
  · simp only [Function.comp_apply, Nat.and_two_pow, ht, Bool.toNat_true, Nat.one_mul,
      if_pos ht]
    rw [if_pos (by omega)]
    simp
  · simp only [Function.comp_apply, Nat.and_two_pow, ht, Bool.toNat_false, Nat.zero_mul,
      if_neg ht]
    rw [if_neg (by omega)]
    simp

theorem bit_decomposition_inj {n x y : Nat} (hx : x < 2 ^ n) (hy : y < 2 ^ n)
    (h : bit_decomposition n x = bit_decomposition n y) : x = y := by
  apply Nat.eq_of_testBit_eq
  intro i
  by_cases hi : i < n
  · have hidx : n - 1 - i < n := by omega
    have hgd := congrArg (fun l => l.getD (n - 1 - i) 0) h
    simp only at hgd
    rw [bd_getD n x _ hidx, bd_getD n y _ hidx] at hgd
    have hii : n - 1 - (n - 1 - i) = i := by omega
    rw [hii] at hgd
    by_cases hbx : x.testBit i <;> by_cases hby : y.testBit i <;>
      simp [hbx, hby] at hgd ⊢
  · have hxi : x.testBit i = false :=
      Nat.testBit_lt_two_pow (lt_of_lt_of_le hx (Nat.pow_le_pow_right (by norm_num) (by omega)))
    have hyi : y.testBit i = false :=
      Nat.testBit_lt_two_pow (lt_of_lt_of_le hy (Nat.pow_le_pow_right (by norm_num) (by omega)))
    rw [hxi, hyi]

/-! ## DPF main inductions -/

namespace DPF

theorem keygen_eval_onpath (lam : Nat) (prg : BV → BV)
    (hplen : ∀ s, (prg s).length = 2 * (lam + 1)) (hpbits : ∀ s, isBits (prg s)) :
    ∀ (abits : List Nat), isBits abits →
    ∀ (s0 s1 : BV) (t0 t1 : Nat), t0 ≤ 1 → t1 ≤ 1 → t0 ^^^ t1 = 1 →
    evalLevels lam prg abits (keygenLevels lam prg abits s0 s1 t0 t1).1 s0 t0 =
      ((keygenLevels lam prg abits s0 s1 t0 t1).2.1,
       (keygenLevels lam prg abits s0 s1 t0 t1).2.2.2.1) ∧
    evalLevels lam prg abits (keygenLevels lam prg abits s0 s1 t0 t1).1 s1 t1 =
      ((keygenLevels lam prg abits s0 s1 t0 t1).2.2.1,
       (keygenLevels lam prg abits s0 s1 t0 t1).2.2.2.2) ∧
    (keygenLevels lam prg abits s0 s1 t0 t1).2.2.2.1 ≤ 1 ∧
    (keygenLevels lam prg abits s0 s1 t0 t1).2.2.2.2 ≤ 1 ∧
    ((keygenLevels lam prg abits s0 s1 t0 t1).2.2.2.1 ^^^
      (keygenLevels lam prg abits s0 s1 t0 t1).2.2.2.2) = 1 := by
  intro abits
  induction abits with
  | nil =>
    intro _ s0 s1 t0 t1 ht0 ht1 hx
    exact ⟨rfl, rfl, ht0, ht1, hx⟩
  | cons ai rest ih =>
    intro hbits s0 s1 t0 t1 ht0 ht1 hx
    have hai : ai ≤ 1 := hbits ai (List.mem_cons_self ai rest)
    have hrest : isBits rest := fun z hz => hbits z (List.mem_cons_of_mem _ hz)
    have hstep := stateStep_onpath lam ai t0 t1 (prg s0) (prg s1) hai ht0 ht1 hx
      (hpbits s0) (hpbits s1) (hplen s0) (hplen s1)
    have ihh := ih hrest
      (stateStep lam (prg s0) t0 (cwStep lam (prg s0) (prg s1) ai) ai).1
      (stateStep lam (prg s1) t1 (cwStep lam (prg s0) (prg s1) ai) ai).1
      (stateStep lam (prg s0) t0 (cwStep lam (prg s0) (prg s1) ai) ai).2
      (stateStep lam (prg s1) t1 (cwStep lam (prg s0) (prg s1) ai) ai).2
      hstep.1 hstep.2.1 hstep.2.2
    simp only [keygenLevels, evalLevels]
    exact ihh

theorem eval_offpath (lam : Nat) (prg : BV → BV)
    (hplen : ∀ s, (prg s).length = 2 * (lam + 1)) (hpbits : ∀ s, isBits (prg s)) :
    ∀ (abits xbits : List Nat), xbits.length = abits.length →
    isBits abits → isBits xbits → xbits ≠ abits →
    ∀ (s0 s1 : BV) (t0 t1 : Nat), t0 ≤ 1 → t1 ≤ 1 → t0 ^^^ t1 = 1 →
    evalLevels lam prg xbits (keygenLevels lam prg abits s0 s1 t0 t1).1 s0 t0 =
    evalLevels lam prg xbits (keygenLevels lam prg abits s0 s1 t0 t1).1 s1 t1 := by
  intro abits
  induction abits with
  | nil =>
    intro xbits hlen _ _ hne
    rw [List.length_nil, List.length_eq_zero] at hlen
    exact absurd hlen hne
  | cons ai rest ih =>
    intro xbits hlen hbitsa hbitsx hne s0 s1 t0 t1 ht0 ht1 hx
    cases xbits with
    | nil => simp at hlen
    | cons xi xs =>
      have hai : ai ≤ 1 := hbitsa ai (List.mem_cons_self ai rest)
      have hxi : xi ≤ 1 := hbitsx xi (List.mem_cons_self xi xs)
      have hresta : isBits rest := fun z hz => hbitsa z (List.mem_cons_of_mem _ hz)
      have hrestx : isBits xs := fun z hz => hbitsx z (List.mem_cons_of_mem _ hz)
      by_cases heq : xi = ai
      · subst heq
        have hstep := stateStep_onpath lam xi t0 t1 (prg s0) (prg s1) hai ht0 ht1 hx
          (hpbits s0) (hpbits s1) (hplen s0) (hplen s1)
        have hxs : xs ≠ rest := by
          intro hcon
          exact hne (by rw [hcon])
        simp only [keygenLevels, evalLevels]
        exact ih xs (by simpa using hlen) hresta hrestx hxs
          (stateStep lam (prg s0) t0 (cwStep lam (prg s0) (prg s1) xi) xi).1
          (stateStep lam (prg s1) t1 (cwStep lam (prg s0) (prg s1) xi) xi).1
          (stateStep lam (prg s0) t0 (cwStep lam (prg s0) (prg s1) xi) xi).2
          (stateStep lam (prg s1) t1 (cwStep lam (prg s0) (prg s1) xi) xi).2
          hstep.1 hstep.2.1 hstep.2.2
      · have hoff := stateStep_offpath lam ai xi t0 t1 (prg s0) (prg s1) hai hxi heq
          ht0 ht1 hx (hplen s0) (hplen s1)
        simp only [keygenLevels, evalLevels]
        rw [hoff]

end DPF

/-! ## Casting helpers for the uint8 (mod 256) leaf arithmetic -/

theorem intCast_natMod256 (m : Nat) : (((m % 256 : Nat) : Int) : ZMod 256) = (m : ZMod 256) := by
  rw [Int.cast_natCast]
  exact ZMod.natCast_mod m 256

theorem intCast_emod256 (z : Int) : (((z % 256 : Int)) : ZMod 256) = (z : ZMod 256) :=
  (ZMod.intCast_eq_intCast_iff _ _ _).mpr (Int.emod_emod_of_dvd z dvd_rfl)

theorem toNat_emod256_cast (z : Int) :
    ((((z % 256).toNat : Nat)) : ZMod 256) = (z : ZMod 256) := by
  have h1 : (((z % 256).toNat : Nat) : Int) = z % 256 :=
    Int.toNat_of_nonneg (Int.emod_nonneg z (by norm_num))
  calc (((z % 256).toNat : Nat) : ZMod 256)
      = ((((z % 256).toNat : Nat) : Int) : ZMod 256) := by rw [Int.cast_natCast]
  _ = ((z % 256 : Int) : ZMod 256) := by rw [h1]
  _ = (z : ZMod 256) := intCast_emod256 z

/-- C1 (amended): for every PRG `prg` producing `2(λ+1)` bits, every hidden
point `alpha ∈ [0, 2^n)`, root seeds, and every input `x ∈ [0, 2^n)`, the
two parties' `DPF.eval` outputs on keys from `DPF.keygen` sum to the
equality indicator modulo `2^8 = 256` — the modulus of the uint8 leaf
arithmetic (`Convert`, `CW_n`) — rather than modulo `M = 2^n`. -/
theorem dpf_eval_sum_eq_indicator_mod_256 (lam n : Nat) (prg : BV → BV)
    (hplen : ∀ s, (prg s).length = 2 * (lam + 1)) (hpbits : ∀ s, isBits (prg s))
    (alpha x : Nat) (halpha : alpha < 2 ^ n) (hx : x < 2 ^ n) (s00 s01 : BV) :
    (DPF.eval lam n prg 0 x s00 (DPF.keygen lam n prg alpha s00 s01).2.2.2.1
        (DPF.keygen lam n prg alpha s00 s01).2.2.2.2 +
     DPF.eval lam n prg 1 x s01 (DPF.keygen lam n prg alpha s00 s01).2.2.2.1
        (DPF.keygen lam n prg alpha s00 s01).2.2.2.2)
      ≡ (if x = alpha then 1 else 0) [ZMOD 256] := by
  have hx01 : (0 : Nat) ^^^ 1 = 1 := by decide
  by_cases hxa : x = alpha
  · subst hxa
    obtain ⟨hE0, hE1, htn0, htn1, hxor⟩ := DPF.keygen_eval_onpath lam prg hplen hpbits
      (bit_decomposition n x) (isBits_bit_decomposition n x) s00 s01 0 1
      (by norm_num) (by norm_num) hx01
    rw [if_pos rfl]
    simp only [DPF.keygen, DPF.eval]
    rw [hE0, hE1]
    apply (ZMod.intCast_eq_intCast_iff _ _ 256).mp
    push_cast
    rw [intCast_emod256, intCast_emod256]
    push_cast
    rw [toNat_emod256_cast]
    push_cast
    rcases xor_bits_eq_one htn0 htn1 hxor with ⟨ht0, ht1⟩ | ⟨ht0, ht1⟩ <;>
      rw [ht0, ht1] <;> push_cast <;> ring
  · have hbd : bit_decomposition n x ≠ bit_decomposition n alpha := by
      intro hcon
      exact hxa (bit_decomposition_inj hx halpha hcon)
    have hoff := DPF.eval_offpath lam prg hplen hpbits
      (bit_decomposition n alpha) (bit_decomposition n x)
      (by rw [length_bit_decomposition, length_bit_decomposition])
      (isBits_bit_decomposition n alpha) (isBits_bit_decomposition n x) hbd
      s00 s01 0 1 (by norm_num) (by norm_num) hx01
    rw [if_neg hxa]
    simp only [DPF.keygen, DPF.eval]
    rw [hoff]
    have hring : ∀ v : Int, (-1 : Int) ^ (0 : Nat) * v + (-1 : Int) ^ (1 : Nat) * v = 0 := by
      intro v
      ring
    rw [hring]

/-! ## DIF step lemmas -/

theorem row2_TruthTableDIF (lam r ai : Nat) (s : BV) (hs : s.length = lam)
    (hr : r ≤ 1) (hai : ai ≤ 1) :
    row2 (lam + 2) r (TruthTableDIF lam s ai) =
      if r = ai then 0 :: (s ++ [1]) else ai :: zeros (lam + 1) := by
  have hlen1 : ([0] ++ (s ++ [1])).length = lam + 2 := by simp [hs]
  have hlen1' : ([1] ++ zeros (lam + 1)).length = lam + 2 := by simp [zeros]
  have hlen0' : ([0] ++ zeros (lam + 1)).length = lam + 2 := by simp [zeros]
  rcases bit_eq_cases hr with hr' | hr' <;> rcases bit_eq_cases hai with ha' | ha' <;>
    subst hr' <;> subst ha'
  · rw [TruthTableDIF, if_pos rfl, if_pos rfl, row2_append_zero _ _ _ hlen1]
    rfl
  · rw [TruthTableDIF, if_neg (by omega), if_neg (by omega),
      row2_append_zero _ _ _ hlen1']
    rfl
  · rw [TruthTableDIF, if_pos rfl, if_neg (by omega),
      row2_append_one _ _ _ hlen1 hlen0']
    rfl
  · rw [TruthTableDIF, if_neg (by omega), if_pos rfl,
      row2_append_one _ _ _ hlen1' hlen1]
    rfl

namespace DIF

theorem sRand_blend_dif (lam : Nat) (h0 h1 : BV) (ai : Nat) (hai : ai ≤ 1)
    (hh0 : 2 * (lam + 2) ≤ h0.length) (hh1 : 2 * (lam + 2) ≤ h1.length) :
    sRand lam h0 h1 ai =
      if ai = 1 then xorv ((h0.drop 2).take lam) ((h1.drop 2).take lam)
      else xorv ((h0.drop (3 + lam)).take lam) ((h1.drop (3 + lam)).take lam) := by
  have hL : (xorv ((h0.drop 2).take lam) ((h1.drop 2).take lam)).length = lam := by
    rw [length_xorv]
    simp only [List.length_take, List.length_drop]
    omega
  have hR : (xorv ((h0.drop (3 + lam)).take lam) ((h1.drop (3 + lam)).take lam)).length
      = lam := by
    rw [length_xorv]
    simp only [List.length_take, List.length_drop]
    omega
  rcases bit_eq_cases hai with h | h <;> subst h
  · rw [if_neg (by omega)]
    unfold sRand
    rw [smul_zero_eq, Nat.sub_zero, smul_one_eq, hL, addv_zeros_left _ _ (by omega)]
  · rw [if_pos rfl]
    unfold sRand
    rw [smul_one_eq, Nat.sub_self, smul_zero_eq, hR, addv_zeros_right _ _ (by omega)]

theorem length_sRand_dif (lam : Nat) (h0 h1 : BV) (ai : Nat) (hai : ai ≤ 1)
    (hh0 : 2 * (lam + 2) ≤ h0.length) (hh1 : 2 * (lam + 2) ≤ h1.length) :
    (sRand lam h0 h1 ai).length = lam := by
  rw [sRand_blend_dif lam h0 h1 ai hai hh0 hh1]
  split <;> (rw [length_xorv]; simp only [List.length_take, List.length_drop]; omega)

theorem isBits_sRand_dif (lam : Nat) (h0 h1 : BV) (ai : Nat) (hai : ai ≤ 1)
    (hb0 : isBits h0) (hb1 : isBits h1)
    (hh0 : 2 * (lam + 2) ≤ h0.length) (hh1 : 2 * (lam + 2) ≤ h1.length) :
    isBits (sRand lam h0 h1 ai) := by
  rw [sRand_blend_dif lam h0 h1 ai hai hh0 hh1]
  split <;>
    exact isBits_xorv (isBits_take _ (isBits_drop _ hb0)) (isBits_take _ (isBits_drop _ hb1))

theorem length_TruthTableDIF (lam ai : Nat) (s : BV) (hs : s.length = lam) :
    (TruthTableDIF lam s ai).length = 2 * (lam + 2) := by
  unfold TruthTableDIF
  split <;> simp [hs, zeros] <;> omega

theorem isBits_TruthTableDIF (lam ai : Nat) (s : BV) (hai : ai ≤ 1) (hs : isBits s) :
    isBits (TruthTableDIF lam s ai) := by
  have h1 : isBits ([0] ++ (s ++ [1])) :=
    isBits_append (by intro x hx; simp at hx; omega)
      (isBits_append hs (by intro x hx; simp at hx; omega))
  have h2 : isBits ([ai] ++ zeros (lam + 1)) :=
    isBits_append (by intro x hx; simp at hx; omega) (isBits_zeros _)
  have h3 : isBits ([0] ++ zeros (lam + 1)) :=
    isBits_append (by intro x hx; simp at hx; omega) (isBits_zeros _)
  unfold TruthTableDIF
  split
  · exact isBits_append h1 h3
  · intro x hx
    rcases List.mem_append.mp hx with hmem | hmem
    · rcases List.mem_cons.mp hmem with h' | h'
      · omega
      · exact isBits_zeros _ x h'
    · exact h1 x hmem

theorem length_cwStep_dif (lam ai : Nat) (h0 h1 : BV) (hai : ai ≤ 1)
    (hh0 : h0.length = 2 * (lam + 2)) (hh1 : h1.length = 2 * (lam + 2)) :
    (cwStep lam h0 h1 ai).length = 2 * (lam + 2) := by
  unfold cwStep
  rw [length_xorv, length_xorv,
    length_TruthTableDIF lam ai _ (length_sRand_dif lam h0 h1 ai hai (by omega) (by omega)),
    hh0, hh1]
  omega

theorem isBits_cwStep_dif (lam ai : Nat) (h0 h1 : BV) (hai : ai ≤ 1)
    (hb0 : isBits h0) (hb1 : isBits h1)
    (hh0 : h0.length = 2 * (lam + 2)) (hh1 : h1.length = 2 * (lam + 2)) :
    isBits (cwStep lam h0 h1 ai) :=
  isBits_xorv (isBits_xorv (isBits_TruthTableDIF lam ai _ hai
    (isBits_sRand_dif lam h0 h1 ai hai hb0 hb1 (by omega) (by omega))) hb0) hb1

theorem tau_xor_dif (lam ai t0 t1 : Nat) (h0 h1 : BV) (hai : ai ≤ 1)
    (ht0 : t0 ≤ 1) (ht1 : t1 ≤ 1) (hx : t0 ^^^ t1 = 1)
    (hh0 : h0.length = 2 * (lam + 2)) (hh1 : h1.length = 2 * (lam + 2)) :
    xorv (xorv h0 (smul t0 (cwStep lam h0 h1 ai)))
         (xorv h1 (smul t1 (cwStep lam h0 h1 ai)))
      = TruthTableDIF lam (sRand lam h0 h1 ai) ai := by
  have hTT : (TruthTableDIF lam (sRand lam h0 h1 ai) ai).length = 2 * (lam + 2) :=
    length_TruthTableDIF lam ai _ (length_sRand_dif lam h0 h1 ai hai (by omega) (by omega))
  have hCW : (cwStep lam h0 h1 ai).length = 2 * (lam + 2) :=
    length_cwStep_dif lam ai h0 h1 hai hh0 hh1
  rcases xor_bits_eq_one ht0 ht1 hx with ⟨rfl, rfl⟩ | ⟨rfl, rfl⟩
  · rw [smul_zero_eq, hCW, xorv_zeros_right _ _ (by omega), smul_one_eq]
    show xorv h0 (xorv h1 (cwStep lam h0 h1 ai)) = _
    unfold cwStep
    rw [xorv_comm (xorv (TruthTableDIF lam (sRand lam h0 h1 ai) ai) h0) h1,
      xorv_cancel h1 _ (by rw [length_xorv, hTT, hh0, hh1]; omega),
      xorv_comm (TruthTableDIF lam (sRand lam h0 h1 ai) ai) h0,
      xorv_cancel h0 _ (by omega)]
  · rw [smul_zero_eq, hCW, xorv_zeros_right _ _ (by omega), smul_one_eq]
    show xorv (xorv h0 (cwStep lam h0 h1 ai)) h1 = _
    unfold cwStep
    rw [xorv_comm (TruthTableDIF lam (sRand lam h0 h1 ai) ai) h0,
      xorv_assoc h0 (TruthTableDIF lam (sRand lam h0 h1 ai) ai) h1,
      xorv_cancel h0 _ (by rw [length_xorv, hTT, hh1]; omega),
      xorv_assoc (TruthTableDIF lam (sRand lam h0 h1 ai) ai) h1 h1,
      xorv_self h1, xorv_zeros_right _ _ (by omega)]

theorem length_tau_dif (lam r t : Nat) (h cw : BV) (hr : r ≤ 1)
    (hh : h.length = 2 * (lam + 2)) (hcw : cw.length = 2 * (lam + 2)) :
    (row2 (lam + 2) r (xorv h (smul t cw))).length = lam + 2 := by
  rw [length_row2, length_xorv, length_smul, hh, hcw]
  rcases bit_eq_cases hr with h' | h' <;> subst h' <;> omega

theorem stateStep_onpath_dif (lam ai t0 t1 : Nat) (h0 h1 : BV) (hai : ai ≤ 1)
    (ht0 : t0 ≤ 1) (ht1 : t1 ≤ 1) (hx : t0 ^^^ t1 = 1)
    (hb0 : isBits h0) (hb1 : isBits h1)
    (hh0 : h0.length = 2 * (lam + 2)) (hh1 : h1.length = 2 * (lam + 2)) :
    (stateStep lam h0 t0 (cwStep lam h0 h1 ai) ai).1 =
      (stateStep lam h1 t1 (cwStep lam h0 h1 ai) ai).1 ∧
    (stateStep lam h0 t0 (cwStep lam h0 h1 ai) ai).1 ≤ 1 ∧
    (stateStep lam h0 t0 (cwStep lam h0 h1 ai) ai).2.2 ≤ 1 ∧
    (stateStep lam h1 t1 (cwStep lam h0 h1 ai) ai).2.2 ≤ 1 ∧
    ((stateStep lam h0 t0 (cwStep lam h0 h1 ai) ai).2.2 ^^^
     (stateStep lam h1 t1 (cwStep lam h0 h1 ai) ai).2.2) = 1 := by
  have hcwlen := length_cwStep_dif lam ai h0 h1 hai hh0 hh1
  have hcwbits := isBits_cwStep_dif lam ai h0 h1 hai hb0 hb1 hh0 hh1
  have hsrlen := length_sRand_dif lam h0 h1 ai hai (by omega) (by omega)
  have htau0 : (row2 (lam + 2) ai (xorv h0 (smul t0 (cwStep lam h0 h1 ai)))).length
      = lam + 2 := length_tau_dif lam ai t0 _ _ hai hh0 hcwlen
  have htau1 : (row2 (lam + 2) ai (xorv h1 (smul t1 (cwStep lam h0 h1 ai)))).length
      = lam + 2 := length_tau_dif lam ai t1 _ _ hai hh1 hcwlen
  have hbt0 : isBits (row2 (lam + 2) ai (xorv h0 (smul t0 (cwStep lam h0 h1 ai)))) :=
    isBits_row2 _ _ (isBits_xorv hb0 (isBits_smul ht0 hcwbits))
  have hbt1 : isBits (row2 (lam + 2) ai (xorv h1 (smul t1 (cwStep lam h0 h1 ai)))) :=
    isBits_row2 _ _ (isBits_xorv hb1 (isBits_smul ht1 hcwbits))
  have hne0 : row2 (lam + 2) ai (xorv h0 (smul t0 (cwStep lam h0 h1 ai))) ≠ [] := by
    intro hcon
    have := congrArg List.length hcon
    simp [htau0] at this
  have hne1 : row2 (lam + 2) ai (xorv h1 (smul t1 (cwStep lam h0 h1 ai))) ≠ [] := by
    intro hcon
    have := congrArg List.length hcon
    simp [htau1] at this
  have hkey : xorv (row2 (lam + 2) ai (xorv h0 (smul t0 (cwStep lam h0 h1 ai))))
      (row2 (lam + 2) ai (xorv h1 (smul t1 (cwStep lam h0 h1 ai))))
      = 0 :: (sRand lam h0 h1 ai ++ [1]) := by
    rw [← row2_xorv, tau_xor_dif lam ai t0 t1 h0 h1 hai ht0 ht1 hx hh0 hh1,
      row2_TruthTableDIF lam ai ai _ hsrlen hai hai, if_pos rfl]
  have hsig : (stateStep lam h0 t0 (cwStep lam h0 h1 ai) ai).1 =
      (stateStep lam h1 t1 (cwStep lam h0 h1 ai) ai).1 := by
    show (row2 (lam + 2) ai (xorv h0 (smul t0 (cwStep lam h0 h1 ai)))).headD 0 =
      (row2 (lam + 2) ai (xorv h1 (smul t1 (cwStep lam h0 h1 ai)))).headD 0
    apply Nat.xor_eq_zero.mp
    rw [← headD_xorv _ _ hne0 hne1, hkey]
    rfl
  refine ⟨hsig, headD_le_one hbt0, headD_le_one (isBits_drop _ hbt0),
    headD_le_one (isBits_drop _ hbt1), ?_⟩
  show ((row2 (lam + 2) ai (xorv h0 (smul t0 (cwStep lam h0 h1 ai)))).drop (1 + lam)).headD 0 ^^^
       ((row2 (lam + 2) ai (xorv h1 (smul t1 (cwStep lam h0 h1 ai)))).drop (1 + lam)).headD 0 = 1
  rw [← headD_xorv _ _
      (by intro hcon; have := congrArg List.length hcon; simp [htau0] at this; omega)
      (by intro hcon; have := congrArg List.length hcon; simp [htau1] at this; omega),
    ← drop_xorv, hkey, ← List.cons_append,
    drop_append_len (1 + lam) (0 :: sRand lam h0 h1 ai) [1] (by simp [hsrlen]; omega)]
  rfl

theorem stateStep_offpath_dif (lam ai r t0 t1 : Nat) (h0 h1 : BV) (hai : ai ≤ 1)
    (hr : r ≤ 1) (hne : r ≠ ai)
    (ht0 : t0 ≤ 1) (ht1 : t1 ≤ 1) (hx : t0 ^^^ t1 = 1)
    (hb0 : isBits h0) (hb1 : isBits h1)
    (hh0 : h0.length = 2 * (lam + 2)) (hh1 : h1.length = 2 * (lam + 2)) :
    ((stateStep lam h0 t0 (cwStep lam h0 h1 ai) r).1 ^^^
     (stateStep lam h1 t1 (cwStep lam h0 h1 ai) r).1) = ai ∧
    (stateStep lam h0 t0 (cwStep lam h0 h1 ai) r).1 ≤ 1 ∧
    (stateStep lam h1 t1 (cwStep lam h0 h1 ai) r).1 ≤ 1 ∧
    (stateStep lam h0 t0 (cwStep lam h0 h1 ai) r).2 =
      (stateStep lam h1 t1 (cwStep lam h0 h1 ai) r).2 := by
  have hcwlen := length_cwStep_dif lam ai h0 h1 hai hh0 hh1
  have hcwbits := isBits_cwStep_dif lam ai h0 h1 hai hb0 hb1 hh0 hh1
  have hsrlen := length_sRand_dif lam h0 h1 ai hai (by omega) (by omega)
  have htau0 : (row2 (lam + 2) r (xorv h0 (smul t0 (cwStep lam h0 h1 ai)))).length
      = lam + 2 := length_tau_dif lam r t0 _ _ hr hh0 hcwlen
  have htau1 : (row2 (lam + 2) r (xorv h1 (smul t1 (cwStep lam h0 h1 ai)))).length
      = lam + 2 := length_tau_dif lam r t1 _ _ hr hh1 hcwlen
  have hbt0 : isBits (row2 (lam + 2) r (xorv h0 (smul t0 (cwStep lam h0 h1 ai)))) :=
    isBits_row2 _ _ (isBits_xorv hb0 (isBits_smul ht0 hcwbits))
  have hbt1 : isBits (row2 (lam + 2) r (xorv h1 (smul t1 (cwStep lam h0 h1 ai)))) :=
    isBits_row2 _ _ (isBits_xorv hb1 (isBits_smul ht1 hcwbits))
  have hne0 : row2 (lam + 2) r (xorv h0 (smul t0 (cwStep lam h0 h1 ai))) ≠ [] := by
    intro hcon
    have := congrArg List.length hcon
    simp [htau0] at this
  have hne1 : row2 (lam + 2) r (xorv h1 (smul t1 (cwStep lam h0 h1 ai))) ≠ [] := by
    intro hcon
    have := congrArg List.length hcon
    simp [htau1] at this
  have hkey : xorv (row2 (lam + 2) r (xorv h0 (smul t0 (cwStep lam h0 h1 ai))))
      (row2 (lam + 2) r (xorv h1 (smul t1 (cwStep lam h0 h1 ai))))
      = ai :: zeros (lam + 1) := by
    rw [← row2_xorv, tau_xor_dif lam ai t0 t1 h0 h1 hai ht0 ht1 hx hh0 hh1,
      row2_TruthTableDIF lam r ai _ hsrlen hr hai, if_neg hne]
  have hsig : ((stateStep lam h0 t0 (cwStep lam h0 h1 ai) r).1 ^^^
      (stateStep lam h1 t1 (cwStep lam h0 h1 ai) r).1) = ai := by
    show (row2 (lam + 2) r (xorv h0 (smul t0 (cwStep lam h0 h1 ai)))).headD 0 ^^^
      (row2 (lam + 2) r (xorv h1 (smul t1 (cwStep lam h0 h1 ai)))).headD 0 = ai
    rw [← headD_xorv _ _ hne0 hne1, hkey]
    rfl
  have hdropeq : (row2 (lam + 2) r (xorv h0 (smul t0 (cwStep lam h0 h1 ai)))).drop 1 =
      (row2 (lam + 2) r (xorv h1 (smul t1 (cwStep lam h0 h1 ai)))).drop 1 := by
    apply eq_of_xorv_zeros
    · simp [htau0, htau1]
    · rw [← drop_xorv, hkey]
      simp [htau0]
  refine ⟨hsig, headD_le_one hbt0, headD_le_one hbt1, ?_⟩
  have h2 : (row2 (lam + 2) r (xorv h0 (smul t0 (cwStep lam h0 h1 ai)))).drop (1 + lam) =
      (row2 (lam + 2) r (xorv h1 (smul t1 (cwStep lam h0 h1 ai)))).drop (1 + lam) := by
    have e0 : (row2 (lam + 2) r (xorv h0 (smul t0 (cwStep lam h0 h1 ai)))).drop (1 + lam) =
        ((row2 (lam + 2) r (xorv h0 (smul t0 (cwStep lam h0 h1 ai)))).drop 1).drop lam := by
      rw [List.drop_drop]
    have e1 : (row2 (lam + 2) r (xorv h1 (smul t1 (cwStep lam h0 h1 ai)))).drop (1 + lam) =
        ((row2 (lam + 2) r (xorv h1 (smul t1 (cwStep lam h0 h1 ai)))).drop 1).drop lam := by
      rw [List.drop_drop]
    rw [e0, e1, hdropeq]
  show ((((row2 (lam + 2) r (xorv h0 (smul t0 (cwStep lam h0 h1 ai)))).drop 1).take lam : BV),
      (((row2 (lam + 2) r (xorv h0 (smul t0 (cwStep lam h0 h1 ai)))).drop (1 + lam)).headD 0 : Nat))
      = ((((row2 (lam + 2) r (xorv h1 (smul t1 (cwStep lam h0 h1 ai)))).drop 1).take lam : BV),
      (((row2 (lam + 2) r (xorv h1 (smul t1 (cwStep lam h0 h1 ai)))).drop (1 + lam)).headD 0 : Nat))
  rw [hdropeq, h2]

end DIF

/-! ## MSB-first lexicographic comparison of bit strings -/

/-- Lexicographic `≤` on equal-length MSB-first bit strings: the order that
`bit_decomposition` transports from `≤` on `[0, 2^n)`. -/
def lexLE : List Nat → List Nat → Bool
  | [], _ => true
  | _ :: _, [] => true
  | x :: xs, a :: as => if x = a then lexLE xs as else decide (x < a)

theorem bit_pow_n_succ (n : Nat) : bit_pow_n (n + 1) = 2 ^ n :: bit_pow_n n := by
  unfold bit_pow_n
  rw [List.range_succ_eq_map, List.map_cons, List.map_map]
  congr 1
  apply List.map_congr_left
  intro i _
  simp only [Function.comp_apply]
  congr 1
  omega

theorem bit_decomposition_succ (n x : Nat) :
    bit_decomposition (n + 1) x =
      (if x.testBit n then 1 else 0) :: bit_decomposition n (x % 2 ^ n) := by
  unfold bit_decomposition
  rw [bit_pow_n_succ, List.map_cons]
  congr 1
  · have hpow : 0 < 2 ^ n := Nat.pos_pow_of_pos _ (by norm_num)
    by_cases ht : x.testBit n
    · simp [Nat.and_two_pow, ht]
    · simp [Nat.and_two_pow, ht]
  · apply List.map_congr_left
    intro p hp
    simp only [bit_pow_n, List.mem_map, List.mem_range] at hp
    obtain ⟨i, hi, rfl⟩ := hp
    have hlt : n - 1 - i < n := by omega
    have : (x % 2 ^ n) &&& 2 ^ (n - 1 - i) = ((x % 2 ^ n).testBit (n - 1 - i)).toNat * 2 ^ (n - 1 - i) :=
      Nat.and_two_pow _ _
    rw [Nat.and_two_pow, Nat.and_two_pow, Nat.testBit_mod_two_pow]
    simp [hlt]

theorem div_pow_eq_of_testBit (x n : Nat) (hx : x < 2 ^ (n + 1)) :
    x / 2 ^ n = (if x.testBit n then 1 else 0) := by
  have h1 : x / 2 ^ n < 2 := by
    apply Nat.div_lt_of_lt_mul
    rw [pow_succ] at hx
    omega
  have h2 : x.testBit n = decide (x / 2 ^ n % 2 = 1) := Nat.testBit_to_div_mod
  by_cases ht : x.testBit n
  · rw [if_pos ht]
    rw [h2] at ht
    have hm := of_decide_eq_true ht
    generalize hq : x / 2 ^ n = q at h1 hm ⊢
    omega
  · rw [if_neg ht]
    rw [h2] at ht
    have hnot : ¬ (x / 2 ^ n % 2 = 1) := by
      intro hcon
      exact ht (decide_eq_true hcon)
    generalize hq : x / 2 ^ n = q at h1 hnot ⊢
    omega

theorem lexLE_bd (n : Nat) : ∀ (x a : Nat), x < 2 ^ n → a < 2 ^ n →
    lexLE (bit_decomposition n x) (bit_decomposition n a) = decide (x ≤ a) := by
  induction n with
  | zero =>
    intro x a hx ha
    interval_cases x
    interval_cases a
    rfl
  | succ n ih =>
    intro x a hx ha
    have hpow : 0 < 2 ^ n := Nat.pos_pow_of_pos _ (by norm_num)
    rw [bit_decomposition_succ, bit_decomposition_succ]
    have hxd : x = 2 ^ n * (x / 2 ^ n) + x % 2 ^ n := (Nat.div_add_mod x (2 ^ n)).symm
    have had : a = 2 ^ n * (a / 2 ^ n) + a % 2 ^ n := (Nat.div_add_mod a (2 ^ n)).symm
    have hxdv := div_pow_eq_of_testBit x n hx
    have hadv := div_pow_eq_of_testBit a n ha
    have hxmod : x % 2 ^ n < 2 ^ n := Nat.mod_lt _ hpow
    have hamod : a % 2 ^ n < 2 ^ n := Nat.mod_lt _ hpow
    by_cases hxb : x.testBit n <;> by_cases hab : a.testBit n
    · rw [if_pos hxb] at hxdv
      rw [if_pos hab] at hadv
      rw [hxdv, Nat.mul_one] at hxd
      rw [hadv, Nat.mul_one] at had
      rw [if_pos hxb, if_pos hab]
      show lexLE _ _ = _
      rw [lexLE, if_pos rfl, ih (x % 2 ^ n) (a % 2 ^ n) hxmod hamod]
      apply decide_eq_decide.mpr
      omega
    · rw [if_pos hxb] at hxdv
      rw [if_neg hab] at hadv
      rw [hxdv, Nat.mul_one] at hxd
      rw [hadv, Nat.mul_zero] at had
      rw [if_pos hxb, if_neg hab]
      show lexLE _ _ = _
      rw [lexLE, if_neg (by omega)]
      have hle : ¬ (x ≤ a) := by omega
      simp [hle]
    · rw [if_neg hxb] at hxdv
      rw [if_pos hab] at hadv
      rw [hxdv, Nat.mul_zero] at hxd
      rw [hadv, Nat.mul_one] at had
      rw [if_neg hxb, if_pos hab]
      show lexLE _ _ = _
      rw [lexLE, if_neg (by omega)]
      have hle : x ≤ a := by omega
      simp [hle]
    · rw [if_neg hxb] at hxdv
      rw [if_neg hab] at hadv
      rw [hxdv, Nat.mul_zero] at hxd
      rw [hadv, Nat.mul_zero] at had
      rw [if_neg hxb, if_neg hab]
      show lexLE _ _ = _
      rw [lexLE, if_pos rfl, ih (x % 2 ^ n) (a % 2 ^ n) hxmod hamod]
      apply decide_eq_decide.mpr
      omega

theorem bits_add_mod_two {a b : Nat} (ha : a ≤ 1) (hb : b ≤ 1) :
    (a + b) % 2 = a ^^^ b := by
  interval_cases a <;> interval_cases b <;> decide

namespace DIF

theorem parity_main (lam : Nat) (prg : BV → BV)
    (hplen : ∀ s, (prg s).length = 2 * (lam + 2)) (hpbits : ∀ s, isBits (prg s)) :
    ∀ (abits xbits : List Nat), xbits.length = abits.length →
    isBits abits → isBits xbits →
    ∀ (s0 s1 : BV) (t0 t1 : Nat), t0 ≤ 1 → t1 ≤ 1 → t0 ^^^ t1 = 1 →
    (((evalLevels lam prg xbits (keygenLevels lam prg abits s0 s1 t0 t1).1 s0 t0).1.sum +
      (evalLevels lam prg xbits (keygenLevels lam prg abits s0 s1 t0 t1).1 s0 t0).2) +
     ((evalLevels lam prg xbits (keygenLevels lam prg abits s0 s1 t0 t1).1 s1 t1).1.sum +
      (evalLevels lam prg xbits (keygenLevels lam prg abits s0 s1 t0 t1).1 s1 t1).2)) % 2
      = (if lexLE xbits abits then 1 else 0) := by
  intro abits
  induction abits with
  | nil =>
    intro xbits hlen _ _ s0 s1 t0 t1 ht0 ht1 hx
    rw [List.length_nil, List.length_eq_zero] at hlen
    subst hlen
    simp only [keygenLevels, evalLevels, List.sum_nil, lexLE, if_true]
    rcases xor_bits_eq_one ht0 ht1 hx with ⟨rfl, rfl⟩ | ⟨rfl, rfl⟩ <;> rfl
  | cons ai rest ih =>
    intro xbits hlen hbitsa hbitsx s0 s1 t0 t1 ht0 ht1 hx
    cases xbits with
    | nil => simp at hlen
    | cons xi xs =>
      have hai : ai ≤ 1 := hbitsa ai (List.mem_cons_self ai rest)
      have hxi : xi ≤ 1 := hbitsx xi (List.mem_cons_self xi xs)
      have hresta : isBits rest := fun z hz => hbitsa z (List.mem_cons_of_mem _ hz)
      have hrestx : isBits xs := fun z hz => hbitsx z (List.mem_cons_of_mem _ hz)
      by_cases heq : xi = ai
      · subst heq
        obtain ⟨hsig, hsigle, ht0', ht1', hx'⟩ := stateStep_onpath_dif lam xi t0 t1
          (prg s0) (prg s1) hai ht0 ht1 hx (hpbits s0) (hpbits s1) (hplen s0) (hplen s1)
        have ihh := ih xs (by simpa using hlen) hresta hrestx
          (stateStep lam (prg s0) t0 (cwStep lam (prg s0) (prg s1) xi) xi).2.1
          (stateStep lam (prg s1) t1 (cwStep lam (prg s0) (prg s1) xi) xi).2.1
          (stateStep lam (prg s0) t0 (cwStep lam (prg s0) (prg s1) xi) xi).2.2
          (stateStep lam (prg s1) t1 (cwStep lam (prg s0) (prg s1) xi) xi).2.2
          ht0' ht1' hx'
        simp only [keygenLevels, evalLevels, List.sum_cons]
        have hlex : lexLE (xi :: xs) (xi :: rest) = lexLE xs rest := by
          rw [lexLE, if_pos rfl]
        rw [hlex, hsig]
        cases hc : lexLE xs rest <;> rw [hc] at ihh <;> simp only [if_true, if_false,
          Bool.false_eq_true] at ihh ⊢ <;> omega
      · obtain ⟨hsigx, hsig0, hsig1, hst⟩ := stateStep_offpath_dif lam ai xi t0 t1
          (prg s0) (prg s1) hai hxi heq ht0 ht1 hx (hpbits s0) (hpbits s1)
          (hplen s0) (hplen s1)
        have hpar : ((stateStep lam (prg s0) t0 (cwStep lam (prg s0) (prg s1) ai) xi).1 +
            (stateStep lam (prg s1) t1 (cwStep lam (prg s0) (prg s1) ai) xi).1) % 2 = ai := by
          rw [bits_add_mod_two hsig0 hsig1, hsigx]
        simp only [keygenLevels, evalLevels, List.sum_cons]
        rw [hst]
        have hlex : lexLE (xi :: xs) (ai :: rest) = decide (xi < ai) := by
          rw [lexLE, if_neg heq]
        rw [hlex]
        rcases bit_eq_cases hai with h | h <;> rcases bit_eq_cases hxi with h' | h' <;>
          subst h <;> subst h'
        · exact absurd rfl heq
        · have hd : (decide ((1 : Nat) < 0)) = false := by decide
          rw [hd]
          simp only [Bool.false_eq_true, if_false]
          omega
        · have hd : (decide ((0 : Nat) < 1)) = true := by decide
          rw [hd]
          simp only [if_true]
          omega
        · exact absurd rfl heq

end DIF

/-- Helper: the DIF xor-correctness computation, shared by the protocol
soundness proof. -/
theorem dif_xor_correct (lam n : Nat) (prg : BV → BV)
    (hplen : ∀ s, (prg s).length = 2 * (lam + 2)) (hpbits : ∀ s, isBits (prg s))
    (alpha x : Nat) (halpha : alpha < 2 ^ n) (hx : x < 2 ^ n) (s00 s01 : BV) :
    ((DIF.eval lam n prg 0 x s00 (DIF.keygen lam n prg alpha s00 s01).2.2.2) ^^^
     (DIF.eval lam n prg 1 x s01 (DIF.keygen lam n prg alpha s00 s01).2.2.2))
      = (if x ≤ alpha then 1 else 0) := by
  have hx01 : (0 : Nat) ^^^ 1 = 1 := by decide
  have hpar := DIF.parity_main lam prg hplen hpbits (bit_decomposition n alpha)
    (bit_decomposition n x) (by rw [length_bit_decomposition, length_bit_decomposition])
    (isBits_bit_decomposition _ _) (isBits_bit_decomposition _ _)
    s00 s01 0 1 (by norm_num) (by norm_num) hx01
  rw [lexLE_bd n x alpha hx halpha] at hpar
  simp only [DIF.keygen, DIF.eval]
  have hle0 : ((DIF.evalLevels lam prg (bit_decomposition n x)
      (DIF.keygenLevels lam prg (bit_decomposition n alpha) s00 s01 0 1).1 s00 0).1.sum +
      (DIF.evalLevels lam prg (bit_decomposition n x)
      (DIF.keygenLevels lam prg (bit_decomposition n alpha) s00 s01 0 1).1 s00 0).2) % 2 ≤ 1 := by
    omega
  have hle1 : ((DIF.evalLevels lam prg (bit_decomposition n x)
      (DIF.keygenLevels lam prg (bit_decomposition n alpha) s00 s01 0 1).1 s01 1).1.sum +
      (DIF.evalLevels lam prg (bit_decomposition n x)
      (DIF.keygenLevels lam prg (bit_decomposition n alpha) s00 s01 0 1).1 s01 1).2) % 2 ≤ 1 := by
    omega
  rw [← bits_add_mod_two hle0 hle1, ← Nat.add_mod, hpar]
  by_cases h : x ≤ alpha <;> simp [h]

/-- C2: DIF correctness — for every PRG `prg` producing `2(λ+2)` bits, every
hidden threshold `alpha ∈ [0, 2^n)` and root seeds, and every input
`x ∈ [0, 2^n)`, the XOR of the two parties' `DIF.eval` outputs on keys from
`DIF.keygen` equals the interval indicator `1{x ≤ alpha}`. -/
theorem dif_eval_xor_eq_indicator (lam n : Nat) (prg : BV → BV)
    (hplen : ∀ s, (prg s).length = 2 * (lam + 2)) (hpbits : ∀ s, isBits (prg s))
    (alpha x : Nat) (halpha : alpha < 2 ^ n) (hx : x < 2 ^ n) (s00 s01 : BV) :
    ((DIF.eval lam n prg 0 x s00 (DIF.keygen lam n prg alpha s00 s01).2.2.2) ^^^
     (DIF.eval lam n prg 1 x s01 (DIF.keygen lam n prg alpha s00 s01).2.2.2))
      = (if x ≤ alpha then 1 else 0) :=
  dif_xor_correct lam n prg hplen hpbits alpha x halpha hx s00 s01

/-- Round-3 boolean-to-arithmetic core: if the two parties hold xor shares
`b0, b1` of a bit and a consumed xor-add couple satisfying
`xor0 ^^^ xor1 = (add0 + add1) mod M`, then after publishing
`μ = (b0 ^^^ xor0) ^^^ (b1 ^^^ xor1)` the outputs of `xor_add_convert_2`
sum to the shared bit modulo `M`. -/
theorem b2a_core (M : Nat) (b0 b1 xor0 xor1 : Nat) (add0 add1 : Int)
    (hb0 : b0 ≤ 1) (hb1 : b1 ≤ 1) (hx0 : xor0 ≤ 1) (hx1 : xor1 ≤ 1)
    (hcouple : (add0 + add1) ≡ ((xor0 ^^^ xor1 : Nat) : Int) [ZMOD (M : Int)]) :
    (xor_add_convert_2 0 ((xor_add_convert_1 b0 xor0) ^^^ (xor_add_convert_1 b1 xor1)) add0 +
     xor_add_convert_2 1 ((xor_add_convert_1 b0 xor0) ^^^ (xor_add_convert_1 b1 xor1)) add1)
      ≡ ((b0 ^^^ b1 : Nat) : Int) [ZMOD (M : Int)] := by
  have hc := (ZMod.intCast_eq_intCast_iff _ _ M).mpr hcouple
  apply (ZMod.intCast_eq_intCast_iff _ _ M).mp
  interval_cases b0 <;> interval_cases b1 <;> interval_cases xor0 <;> interval_cases xor1 <;>
    simp only [xor_add_convert_1, xor_add_convert_2] <;>
    norm_num at hc ⊢ <;>
    first
    | linear_combination hc
    | linear_combination -hc

/-- C4: B2A conversion correctness — for every bit `v` held as XOR shares
`b0 ^^^ b1 = v` and every xor-add couple with
`xor0 ^^^ xor1 ≡ add0 + add1 (mod M)`, after round 3 (masked bit
`μ = (b0 ^^^ xor0) ^^^ (b1 ^^^ xor1)` via `xor_add_convert_1`, outputs
`add_share * (1 - 2μ) + μ * party_id` via `xor_add_convert_2`) the two
outputs sum to `v` modulo `M = 2^n`. -/
theorem xor_add_convert_sum_mod (n : Nat) (b0 b1 xor0 xor1 : Nat) (add0 add1 : Int)
    (hb0 : b0 ≤ 1) (hb1 : b1 ≤ 1) (hx0 : xor0 ≤ 1) (hx1 : xor1 ≤ 1)
    (hcouple : (add0 + add1) ≡ ((xor0 ^^^ xor1 : Nat) : Int) [ZMOD ((2 ^ n : Nat) : Int)]) :
    (xor_add_convert_2 0 ((xor_add_convert_1 b0 xor0) ^^^ (xor_add_convert_1 b1 xor1)) add0 +
     xor_add_convert_2 1 ((xor_add_convert_1 b0 xor0) ^^^ (xor_add_convert_1 b1 xor1)) add1)
      ≡ ((b0 ^^^ b1 : Nat) : Int) [ZMOD ((2 ^ n : Nat) : Int)] :=
  b2a_core (2 ^ n) b0 b1 xor0 xor1 add0 add1 hb0 hb1 hx0 hx1 hcouple

/-- C3 (amended): `le` soundness of the comparison protocol — for every
additive sharing of plaintexts `X, Y ∈ [0, 2^n)`, dealer keys from
`DIF.keygen` with `alpha` additively shared, and a valid xor-add couple,
the reconstruction of the protocol output equals `1{X ≤ Y}` **provided the
mask does not wrap**: `0 ≤ X - Y + alpha < 2^n`.  Without that proviso the
protocol computes `1{(X - Y + alpha) mod 2^n ≤ alpha}`, which can differ
from `1{X ≤ Y}`. -/
theorem fss_comp_reconstruct_sound (lam n : Nat) (prg : BV → BV)
    (hplen : ∀ s, (prg s).length = 2 * (lam + 2)) (hpbits : ∀ s, isBits (prg s))
    (hn : 0 < n)
    (alpha : Nat) (halpha : alpha < 2 ^ n) (s00 s01 : BV)
    (X Y : Nat) (hX : X < 2 ^ n) (hY : Y < 2 ^ n)
    (alphaShare0 alphaShare1 x10 x11 x20 x21 : Int)
    (halphas : alphaShare0 + alphaShare1 ≡ (alpha : Int) [ZMOD ((2 ^ n : Nat) : Int)])
    (hxs : x10 + x11 ≡ (X : Int) [ZMOD ((2 ^ n : Nat) : Int)])
    (hys : x20 + x21 ≡ (Y : Int) [ZMOD ((2 ^ n : Nat) : Int)])
    (xor0 xor1 : Nat) (add0 add1 : Int) (hx0 : xor0 ≤ 1) (hx1 : xor1 ≤ 1)
    (hcouple : add0 + add1 ≡ ((xor0 ^^^ xor1 : Nat) : Int) [ZMOD ((2 ^ n : Nat) : Int)])
    (hlow : 0 ≤ (X : Int) - Y + alpha) (hhigh : (X : Int) - Y + alpha < 2 ^ n) :
    fss_comp_reconstruct lam n prg alpha s00 s01 alphaShare0 alphaShare1
      x10 x11 x20 x21 xor0 xor1 add0 add1
      = if X ≤ Y then 1 else 0 := by
  have hcast : ((2 ^ n : Nat) : Int) = (2 ^ n : Int) := by push_cast; ring
  have hsum : (x10 - x20 + alphaShare0) + (x11 - x21 + alphaShare1) ≡
      (X : Int) - Y + alpha [ZMOD ((2 ^ n : Nat) : Int)] := by
    have h1 : (x10 - x20 + alphaShare0) + (x11 - x21 + alphaShare1) =
        (x10 + x11) - (x20 + x21) + (alphaShare0 + alphaShare1) := by ring
    rw [h1]
    exact (hxs.sub hys).add halphas
  have hmv : ((x10 - x20 + alphaShare0 + (x11 - x21 + alphaShare1)) % (2 ^ n : Int)).toNat
      = ((X : Int) - Y + alpha).toNat := by
    have h2 := hsum
    rw [Int.ModEq, hcast] at h2
    rw [h2, Int.emod_eq_of_lt hlow (by rw [← hcast] at hhigh; exact_mod_cast hhigh)]
  set m : Nat := ((X : Int) - Y + alpha).toNat with hm
  have hmint : (m : Int) = (X : Int) - Y + alpha := Int.toNat_of_nonneg hlow
  have hmlt : m < 2 ^ n := by
    have : ((2 ^ n : Nat) : Int) = (2 ^ n : Int) := hcast
    omega
  have hmle : (m ≤ alpha) ↔ (X ≤ Y) := by omega
  have hdif := dif_xor_correct lam n prg hplen hpbits alpha m halpha hmlt s00 s01
  have hr0le : DIF.eval lam n prg 0 m s00 (DIF.keygen lam n prg alpha s00 s01).2.2.2 ≤ 1 := by
    simp only [DIF.eval]
    omega
  have hr1le : DIF.eval lam n prg 1 m s01 (DIF.keygen lam n prg alpha s00 s01).2.2.2 ≤ 1 := by
    simp only [DIF.eval]
    omega
  have hb2a := b2a_core (2 ^ n)
    (DIF.eval lam n prg 0 m s00 (DIF.keygen lam n prg alpha s00 s01).2.2.2)
    (DIF.eval lam n prg 1 m s01 (DIF.keygen lam n prg alpha s00 s01).2.2.2)
    xor0 xor1 add0 add1 hr0le hr1le hx0 hx1 hcouple
  rw [hdif] at hb2a
  simp only [fss_comp_reconstruct, hmv]
  have hfin := hb2a
  rw [Int.ModEq, hcast] at hfin
  rw [hfin]
  have h2 : (2 : Int) ≤ 2 ^ n := by
    calc (2 : Int) = 2 ^ 1 := by norm_num
    _ ≤ 2 ^ n := by
      apply pow_le_pow_right₀ (by norm_num)
      omega
  by_cases hxy : X ≤ Y
  · rw [if_pos ((hmle).mpr hxy), if_pos hxy]
    push_cast
    exact Int.emod_eq_of_lt (by norm_num) (by omega)
  · rw [if_neg (fun hc => hxy ((hmle).mp hc)), if_neg hxy]
    push_cast
    exact Int.emod_eq_of_lt (by norm_num) (by omega)

/-! ## C5: `Convert` against the spec's base-2 reading -/

/-- The spec's reading of the bit vector: the MSB-first base-2 value. -/
def bitsVal (bits : BV) : Nat := bits.foldl (fun a b => 2 * a + b) 0

theorem bitsVal_foldl (bs : BV) : ∀ acc : Nat,
    bs.foldl (fun a b => 2 * a + b) acc = acc * 2 ^ bs.length + bitsVal bs := by
  induction bs with
  | nil => intro acc; simp [bitsVal]
  | cons b bs ih =>
    intro acc
    simp only [List.foldl_cons, List.length_cons]
    rw [ih (2 * acc + b)]
    have hb : bitsVal (b :: bs) = b * 2 ^ bs.length + bitsVal bs := by
      simp only [bitsVal, List.foldl_cons]
      have := ih (2 * 0 + b)
      simpa using this
    rw [hb, pow_succ]
    ring

theorem bitsVal_cons (b : Nat) (bs : BV) :
    bitsVal (b :: bs) = b * 2 ^ bs.length + bitsVal bs := by
  simp only [bitsVal, List.foldl_cons]
  have := bitsVal_foldl bs (2 * 0 + b)
  simpa [bitsVal] using this

theorem bit_pow_lambda_succ (k : Nat) :
    bit_pow_lambda (k + 1) = 2 ^ k % 256 :: bit_pow_lambda k := by
  simp only [bit_pow_lambda, List.range_succ_eq_map, List.map_cons, List.map_map]
  refine List.cons_eq_cons.mpr ⟨by norm_num, ?_⟩
  apply List.map_congr_left
  intro i hi
  simp only [Function.comp_apply]
  congr 2
  omega

theorem Convert_eq_bitsVal_mod (bits : BV) : ∀ lam, bits.length = lam →
    Convert lam bits = bitsVal bits % 256 := by
  induction bits with
  | nil =>
    intro lam h
    subst h
    simp [Convert, bitsVal, bit_pow_lambda]
  | cons b bs ih =>
    intro lam h
    subst h
    show Convert (bs.length + 1) (b :: bs) = _
    simp only [Convert, bit_pow_lambda_succ, List.zipWith_cons_cons, List.sum_cons,
      bitsVal_cons]
    have h1 : ((List.zipWith (fun b p => b * p) bs (bit_pow_lambda bs.length)).sum : Nat) ≡
        bitsVal bs [MOD 256] := by
      have := ih bs.length rfl
      simpa [Convert, Nat.ModEq] using this
    exact ((Nat.mod_modEq (2 ^ bs.length) 256).mul_left b).add h1

/-- C5 (amended): `Convert` reduces the MSB-first base-2 value of the bit
vector modulo `2^8 = 256` — the wrap of the uint8 dot product — not modulo
`M = 2^n`: the power table is cast to uint8, so `2^k` collapses to
`2^k mod 256` (0 for `k ≥ 8`) and the accumulation also wraps mod 256. -/
theorem Convert_semantics (lam : Nat) (bits : BV) (h : bits.length = lam) :
    Convert lam bits = bitsVal bits % 256 :=
  Convert_eq_bitsVal_mod bits lam h

theorem Convert_semantics_witness :
    ([1, 0, 1] : BV).length = 3 ∧ Convert 3 [1, 0, 1] = bitsVal [1, 0, 1] % 256 :=
  ⟨rfl, Convert_semantics 3 [1, 0, 1] rfl⟩

/-- The λ-bit vector (λ = 110) whose only set bit has weight `2^8`. -/
def c5bits : BV := List.replicate 101 0 ++ 1 :: List.replicate 8 0

set_option maxRecDepth 10000000
set_option maxHeartbeats 40000000

/-- C5 counterexample: at the default parameters `λ = 110`, `n = 32`, the
vector with one set bit of weight `2^8 = 256` converts to 0, while its
base-2 value reduced mod `2^32` is 256. -/
theorem Convert_spec_counterexample :
    c5bits.length = 110 ∧ Convert 110 c5bits ≠ bitsVal c5bits % 2 ^ 32 := by
  constructor
  · rfl
  · decide

/-! ## C8, C9: the primitive store -/

/-- C8: empty-store error handling — for every queue type and both peek
(`remove = false`) and pop (`remove = true`) modes, `get_keys` on a store
whose selected queue is empty returns the
`EmptyCryptoPrimitiveStoreError` and the unchanged store (so no queue is
partially consumed on error). -/
theorem get_keys_empty_error {P : Type} (st : CryptoStore P) (t : OpType) (remove : Bool)
    (h : queueOf t st = []) :
    get_keys st t remove = (.error .emptyCryptoPrimitiveStore, st) := by
  unfold get_keys
  rw [h]

theorem get_keys_empty_error_witness :
    queueOf OpType.comp ({ fss_eq := [], fss_comp := [], xor_add_couple := [] } :
      CryptoStore Nat) = [] ∧
    get_keys ({ fss_eq := [], fss_comp := [], xor_add_couple := [] } : CryptoStore Nat)
      OpType.comp true
      = (.error .emptyCryptoPrimitiveStore,
         { fss_eq := [], fss_comp := [], xor_add_couple := [] }) :=
  ⟨rfl, get_keys_empty_error _ OpType.comp true rfl⟩

/-- C9: mask-build frame property — `mask_builder` only peeks
(`get_keys` with `remove = false`): for every store, input shares and
operation type, the store after the call is exactly the store before it. -/
theorem mask_builder_frame (st : CryptoStore FSSPrim) (x1 x2 : Int) (t : OpType) :
    (mask_builder st x1 x2 t).2 = st := by
  cases h : queueOf t st <;> simp [mask_builder, get_keys, h]

/-! ## C10: G is a prefix of H -/

/-- C10: for every `λ` and seed, the first `2(λ+1)` entries of `H(seed)`
are exactly `G(seed)` — both expanders hash the identical encoding of the
seed with SHA3-256 with no domain separation, `H` merely keeps two more
digits. -/
theorem G_prefix_of_H (lam : Nat) (seed : BV) :
    (H lam seed).map (fun v => v.take (2 * (lam + 1))) = G lam seed ∧
    (Hfun lam seed).take (2 * (lam + 1)) = Gfun lam seed := by
  have hfx : (Hfun lam seed).take (2 * (lam + 1)) = Gfun lam seed := by
    rw [Hfun, Gfun, List.take_take]
    congr 1
    omega
  refine ⟨?_, hfx⟩
  simp only [G, H]
  by_cases h : seed.length = lam
  · rw [if_pos h, if_pos h]
    simp [hfx]
  · rw [if_neg h, if_neg h]
    rfl

/-! ## C6, C7: the PRG output shape -/

theorem land255_shift_lt (x k : Nat) (hk : k ≤ 56) :
    Nat.shiftLeft (Nat.land x 255) k < 2 ^ 64 := by
  show Nat.land x 255 <<< k < 2 ^ 64
  rw [Nat.shiftLeft_eq]
  calc (Nat.land x 255) * 2 ^ k ≤ 255 * 2 ^ 56 :=
        Nat.mul_le_mul Nat.and_le_right (Nat.pow_le_pow_right (by norm_num) hk)
  _ < 2 ^ 64 := by norm_num

theorem byteswap64_lt (v : Nat) : byteswap64 v < 2 ^ 64 := by
  unfold byteswap64
  refine Nat.or_lt_two_pow (land255_shift_lt _ _ (by norm_num)) ?_
  refine Nat.or_lt_two_pow (land255_shift_lt _ _ (by norm_num)) ?_
  refine Nat.or_lt_two_pow (land255_shift_lt _ _ (by norm_num)) ?_
  refine Nat.or_lt_two_pow (land255_shift_lt _ _ (by norm_num)) ?_
  refine Nat.or_lt_two_pow (land255_shift_lt _ _ (by norm_num)) ?_
  refine Nat.or_lt_two_pow (land255_shift_lt _ _ (by norm_num)) ?_
  refine Nat.or_lt_two_pow (land255_shift_lt _ _ (by norm_num)) ?_
  exact lt_of_le_of_lt Nat.and_le_right (by norm_num)

theorem pack4_lt {b0 b1 b2 b3 : Nat} (h0 : b0 < 2 ^ 64) (h1 : b1 < 2 ^ 64)
    (h2 : b2 < 2 ^ 64) (h3 : b3 < 2 ^ 64) :
    ((b0 * 18446744073709551616 + b1) * 18446744073709551616 + b2) * 18446744073709551616
      + b3 < 2 ^ 256 := by
  omega

theorem sha3Nat_lt (len val : Nat) : sha3Nat len val < 2 ^ 256 := by
  unfold sha3Nat
  exact pack4_lt (byteswap64_lt _) (byteswap64_lt _) (byteswap64_lt _) (byteswap64_lt _)

theorem bitLenAux_zero : ∀ fuel, bitLenAux fuel 0 = 0
  | 0 => rfl
  | _ + 1 => by simp [bitLenAux]

theorem bitLenAux_spec : ∀ fuel n, n ≤ fuel → 0 < n →
    2 ^ (bitLenAux fuel n - 1) ≤ n ∧ n < 2 ^ bitLenAux fuel n := by
  intro fuel
  induction fuel with
  | zero => intro n h h0; omega
  | succ f ih =>
    intro n h h0
    simp only [bitLenAux]
    rw [if_neg (by omega)]
    by_cases hn1 : n = 1
    · subst hn1
      norm_num [bitLenAux_zero]
    · have h2 : 0 < n / 2 := by omega
      have h3 : n / 2 ≤ f := by omega
      obtain ⟨hl, hr⟩ := ih (n / 2) h3 h2
      have hL : 1 ≤ bitLenAux f (n / 2) := by
        by_contra hc
        have hz : bitLenAux f (n / 2) = 0 := by omega
        rw [hz] at hr
        omega
      have hpow : 2 ^ bitLenAux f (n / 2) = 2 * 2 ^ (bitLenAux f (n / 2) - 1) := by
        conv_lhs => rw [← Nat.sub_add_cancel hL]
        rw [pow_succ]
        ring
      constructor
      · have hm : 2 * 2 ^ (bitLenAux f (n / 2) - 1) ≤ 2 * (n / 2) :=
          Nat.mul_le_mul_left 2 hl
        have h4 : 2 * (n / 2) ≤ n := by omega
        have h5 : bitLenAux f (n / 2) + 1 - 1 = bitLenAux f (n / 2) := by omega
        rw [h5, hpow]
        exact le_trans hm h4
      · have h5 : n < 2 * (n / 2) + 2 := by omega
        calc n < 2 * (n / 2) + 2 := h5
        _ ≤ 2 * 2 ^ bitLenAux f (n / 2) := by omega
        _ = 2 ^ (bitLenAux f (n / 2) + 1) := by rw [pow_succ]; ring

theorem bitLen_spec (n : Nat) (h : 0 < n) : 2 ^ (bitLen n - 1) ≤ n ∧ n < 2 ^ bitLen n :=
  bitLenAux_spec n n (le_refl n) h

theorem bitLen_eq_of_bounds (k d : Nat) (h1 : 2 ^ k ≤ d) (h2 : d < 2 ^ (k + 1)) :
    bitLen d = k + 1 := by
  have hd : 0 < d := lt_of_lt_of_le (Nat.pos_pow_of_pos k (by norm_num)) h1
  obtain ⟨hl, hr⟩ := bitLen_spec d hd
  have hL : 1 ≤ bitLen d := by
    by_contra hc
    have hz : bitLen d = 0 := by omega
    rw [hz] at hr
    omega
  have ha : k < bitLen d :=
    (Nat.pow_lt_pow_iff_right (by norm_num)).mp (lt_of_le_of_lt h1 hr)
  have hb : bitLen d - 1 < k + 1 :=
    (Nat.pow_lt_pow_iff_right (by norm_num)).mp (lt_of_le_of_lt hl h2)
  omega

theorem bitLen_le (d k : Nat) (h : d < 2 ^ k) : bitLen d ≤ k := by
  by_cases hd : d = 0
  · subst hd
    rw [bitLen, bitLenAux_zero]
    omega
  · obtain ⟨hl, _⟩ := bitLen_spec d (Nat.pos_of_ne_zero hd)
    have hb : bitLen d - 1 < k :=
      (Nat.pow_lt_pow_iff_right (by norm_num)).mp (lt_of_le_of_lt hl h)
    have hL : 1 ≤ bitLen d := by
      by_contra hc
      have hz : bitLen d = 0 := by omega
      obtain ⟨_, hr⟩ := bitLen_spec d (Nat.pos_of_ne_zero hd)
      rw [hz] at hr
      omega
    omega

theorem natBinDigits_eq_digestBits (d : Nat) (h1 : 2 ^ 255 ≤ d) (h2 : d < 2 ^ 256) :
    natBinDigits d = digestBits d := by
  have hb : bitLen d = 256 := bitLen_eq_of_bounds 255 d h1 h2
  have hd0 : d ≠ 0 := by
    intro hc
    rw [hc] at h1
    omega
  rw [natBinDigits, if_neg hd0, hb, digestBits]

/-- C6 (amended): for every seed whose digest has its top bit set
(`2^255 ≤ seedDigest seed`) and width request within the digest
(`2(λ+1) ≤ 256`), `G` returns exactly `2(λ+1)` bits, each 0 or 1, equal to
the leading `2(λ+1)` bits of the SHA3-256 digest of the canonical byte form
of the seed.  Without the top-bit proviso the claim fails: the source slices
`bin(int)[2:]`, which strips leading zero bits of the digest, so the output
is shifted whenever the digest starts with a zero bit. -/
theorem G_output_shape (lam : Nat) (seed : BV) (htop : 2 ^ 255 ≤ seedDigest seed)
    (hw : 2 * (lam + 1) ≤ 256) :
    Gfun lam seed = (digestBits (seedDigest seed)).take (2 * (lam + 1)) ∧
    (Gfun lam seed).length = 2 * (lam + 1) ∧ isBits (Gfun lam seed) := by
  have hlt : seedDigest seed < 2 ^ 256 := sha3Nat_lt _ _
  have heq : Gdigits seed = digestBits (seedDigest seed) :=
    natBinDigits_eq_digestBits _ htop hlt
  have hdlen : (digestBits (seedDigest seed)).length = 256 := by
    rw [digestBits, List.length_map, List.length_range]
  refine ⟨by rw [Gfun, heq], ?_, ?_⟩
  · rw [Gfun, heq, List.length_take, hdlen]
    omega
  · rw [Gfun, heq]
    apply isBits_take
    intro x hx
    simp only [digestBits, List.mem_map] at hx
    obtain ⟨i, _, hix⟩ := hx
    rw [← hix]
    exact Nat.and_le_right

/-- C7 (amended): there is no width guard — for every `λ` and every seed of
length `λ`, even when the requested widths `2(λ+1)` (for `G`) and `2(λ+2)`
(for `H`) exceed the 256 bits of SHA3-256, both expanders succeed (no error
is raised: the only assert checks the seed length) and return a silently
truncated output of at most 256 bits, strictly shorter than requested. -/
theorem G_H_no_width_guard (lam : Nat) (seed : BV) (hlen : seed.length = lam)
    (hwide : 256 < 2 * (lam + 1)) :
    G lam seed = some (Gfun lam seed) ∧ (Gfun lam seed).length < 2 * (lam + 1) ∧
    H lam seed = some (Hfun lam seed) ∧ (Hfun lam seed).length < 2 * (lam + 2) := by
  have hlt : seedDigest seed < 2 ^ 256 := sha3Nat_lt _ _
  have hdlen : (Gdigits seed).length ≤ 256 := by
    rw [Gdigits, natBinDigits]
    by_cases h0 : seedDigest seed = 0
    · rw [if_pos h0]
      norm_num
    · rw [if_neg h0, List.length_map, List.length_range]
      exact bitLen_le _ 256 hlt
  refine ⟨by rw [G, if_pos hlen], ?_, by rw [H, if_pos hlen], ?_⟩
  · rw [Gfun, List.length_take]
    omega
  · rw [Hfun, List.length_take]
    omega

/-! ## Concrete instances: witnesses and counterexamples -/

theorem dpf_sum_witness :
    (0 : Nat) < 2 ^ 1 ∧
    (DPF.eval 1 1 (fun _ => ([0, 0, 0, 0] : BV)) 0 0 [0]
        (DPF.keygen 1 1 (fun _ => ([0, 0, 0, 0] : BV)) 0 [0] [1]).2.2.2.1
        (DPF.keygen 1 1 (fun _ => ([0, 0, 0, 0] : BV)) 0 [0] [1]).2.2.2.2 +
     DPF.eval 1 1 (fun _ => ([0, 0, 0, 0] : BV)) 1 0 [1]
        (DPF.keygen 1 1 (fun _ => ([0, 0, 0, 0] : BV)) 0 [0] [1]).2.2.2.1
        (DPF.keygen 1 1 (fun _ => ([0, 0, 0, 0] : BV)) 0 [0] [1]).2.2.2.2)
      ≡ (if (0 : Nat) = 0 then 1 else 0) [ZMOD 256] :=
  ⟨by decide,
   dpf_eval_sum_eq_indicator_mod_256 1 1 (fun _ => ([0, 0, 0, 0] : BV))
     (fun _ => rfl) (fun _ => (by unfold isBits; decide : isBits [0, 0, 0, 0])) 0 0 (by decide) (by decide) [0] [1]⟩

theorem dif_xor_witness :
    (0 : Nat) < 2 ^ 1 ∧ (1 : Nat) < 2 ^ 1 ∧
    ((DIF.eval 1 1 (fun _ => ([0, 0, 0, 0, 0, 0] : BV)) 0 1 [0]
        (DIF.keygen 1 1 (fun _ => ([0, 0, 0, 0, 0, 0] : BV)) 0 [0] [1]).2.2.2) ^^^
     (DIF.eval 1 1 (fun _ => ([0, 0, 0, 0, 0, 0] : BV)) 1 1 [1]
        (DIF.keygen 1 1 (fun _ => ([0, 0, 0, 0, 0, 0] : BV)) 0 [0] [1]).2.2.2))
      = (if (1 : Nat) ≤ 0 then 1 else 0) :=
  ⟨by decide, by decide,
   dif_eval_xor_eq_indicator 1 1 (fun _ => ([0, 0, 0, 0, 0, 0] : BV))
     (fun _ => rfl) (fun _ => (by unfold isBits; decide : isBits [0, 0, 0, 0, 0, 0])) 0 1 (by decide) (by decide) [0] [1]⟩

theorem b2a_sum_witness :
    (1 : Nat) ≤ 1 ∧
    ((3 : Int) + (-2)) ≡ ((1 ^^^ 0 : Nat) : Int) [ZMOD ((2 ^ 2 : Nat) : Int)] ∧
    (xor_add_convert_2 0 ((xor_add_convert_1 1 1) ^^^ (xor_add_convert_1 0 0)) 3 +
     xor_add_convert_2 1 ((xor_add_convert_1 1 1) ^^^ (xor_add_convert_1 0 0)) (-2))
      ≡ ((1 ^^^ 0 : Nat) : Int) [ZMOD ((2 ^ 2 : Nat) : Int)] := by
  have hc : ((3 : Int) + (-2)) ≡ ((1 ^^^ 0 : Nat) : Int) [ZMOD ((2 ^ 2 : Nat) : Int)] := by
    decide
  exact ⟨le_refl 1, hc,
    xor_add_convert_sum_mod 2 1 0 1 0 3 (-2) (by decide) (by decide) (by decide) (by decide) hc⟩

theorem fss_comp_sound_witness :
    0 < 1 ∧ (1 : Nat) < 2 ^ 1 ∧
    (0 : Int) ≤ ((0 : Nat) : Int) - ((1 : Nat) : Int) + ((1 : Nat) : Int) ∧
    ((0 : Nat) : Int) - ((1 : Nat) : Int) + ((1 : Nat) : Int) < 2 ^ 1 ∧
    fss_comp_reconstruct 1 1 (fun _ => ([0, 0, 0, 0, 0, 0] : BV)) 1 [0] [1]
        1 0 0 0 1 0 1 1 2 0
      = (if (0 : Nat) ≤ (1 : Nat) then 1 else 0) :=
  ⟨by decide, by decide, by decide, by decide,
   fss_comp_reconstruct_sound 1 1 (fun _ => ([0, 0, 0, 0, 0, 0] : BV))
     (fun _ => rfl) (fun _ => (by unfold isBits; decide : isBits [0, 0, 0, 0, 0, 0])) (by decide) 1 (by decide) [0] [1] 0 1
     (by decide) (by decide) 1 0 0 0 1 0 (by decide) (by decide) (by decide)
     1 1 2 0 (by decide) (by decide) (by decide) (by decide) (by decide)⟩

/-- The hidden point and root seeds of the concrete DPF run below
(`λ = 110`, `n = 32`, the real PRG `G`). -/
def c1alpha : Nat := 3426594345

def c1s00 : BV := [1, 1, 1, 1, 0, 1, 0, 1, 0, 0, 1, 0, 1, 1, 0, 1, 0, 1, 1, 0, 0, 0, 0, 0, 1, 0, 0, 0, 1, 0, 0, 1, 1, 0, 0, 0, 0, 0, 0, 1, 1, 0, 0, 0, 0, 1, 0, 1, 0, 1, 0, 0, 1, 0, 0, 1, 1, 1, 0, 1, 1, 1, 0, 0, 0, 0, 0, 0, 0, 1, 0, 1, 1, 0, 0, 1, 1, 0, 0, 0, 0, 0, 1, 1, 1, 1, 1, 1, 0, 1, 0, 1, 0, 0, 1, 1, 0, 1, 1, 1, 0, 1, 1, 1, 0, 0, 1, 0, 0, 1]

def c1s01 : BV := [1, 1, 0, 1, 0, 1, 0, 1, 0, 0, 0, 0, 0, 1, 0, 0, 1, 1, 0, 0, 1, 1, 0, 1, 1, 0, 0, 1, 1, 1, 0, 0, 1, 0, 1, 1, 0, 0, 1, 1, 0, 0, 0, 1, 0, 0, 0, 0, 0, 1, 1, 1, 0, 1, 1, 0, 0, 0, 0, 1, 0, 1, 0, 0, 0, 1, 0, 1, 1, 0, 1, 0, 1, 0, 1, 0, 0, 1, 1, 1, 0, 0, 1, 0, 0, 0, 1, 0, 1, 1, 1, 0, 1, 0, 0, 0, 1, 0, 1, 1, 0, 1, 0, 1, 1, 0, 1, 1, 0, 1]

def c1keys := DPF.keygen 110 32 (Gfun 110) c1alpha c1s00 c1s01

/-- C1 counterexample: at the source's default parameters (`λ = 110`,
`n = 32`, the real PRG `G`), a concrete hidden point and root seeds for
which the two evaluations at `x = α` sum to `-255`, so the sum modulo
`M = 2^32` is `2^32 - 255`, not the claimed indicator value 1.  (The sum is
1 modulo `2^8`, as the amended theorem proves; mod `2^32` the correctness
claim fails whenever the uint8 leaf arithmetic wraps.) -/
theorem dpf_sum_counterexample :
    (DPF.eval 110 32 (Gfun 110) 0 c1alpha c1s00 c1keys.2.2.2.1 c1keys.2.2.2.2 +
     DPF.eval 110 32 (Gfun 110) 1 c1alpha c1s01 c1keys.2.2.2.1 c1keys.2.2.2.2)
      % ((2 : Int) ^ 32) ≠ (if c1alpha = c1alpha then 1 else 0) := by
  decide

/-- Root seeds of the concrete comparison-protocol run below (`λ = 110`,
`n = 8`, the real PRG `H`). -/
def c3s00 : BV := [0, 1, 1, 0, 1, 0, 0, 0, 1, 0, 1, 1, 0, 1, 0, 1, 0, 0, 0, 0, 1, 0, 0, 1, 1, 0, 1, 1, 0, 0, 0, 0, 0, 1, 1, 1, 0, 0, 1, 0, 1, 0, 0, 0, 0, 0, 0, 0, 1, 0, 0, 1, 1, 1, 0, 0, 1, 0, 1, 0, 0, 1, 1, 1, 1, 0, 1, 0, 0, 1, 0, 0, 1, 0, 0, 1, 1, 0, 1, 1, 0, 1, 0, 1, 0, 1, 1, 0, 0, 1, 1, 0, 1, 0, 1, 0, 1, 1, 1, 1, 0, 1, 0, 0, 1, 1, 1, 0, 0, 1]

def c3s01 : BV := [1, 0, 1, 1, 1, 1, 0, 1, 1, 0, 1, 1, 1, 1, 1, 0, 0, 0, 0, 1, 1, 1, 1, 0, 1, 0, 0, 1, 0, 1, 0, 1, 0, 0, 1, 1, 0, 1, 1, 1, 0, 0, 1, 1, 0, 0, 1, 1, 1, 0, 0, 0, 1, 1, 0, 0, 0, 0, 1, 1, 0, 1, 0, 0, 0, 0, 0, 0, 0, 1, 1, 1, 1, 1, 0, 0, 0, 1, 1, 1, 1, 1, 0, 1, 0, 0, 0, 1, 1, 0, 0, 1, 0, 1, 0, 1, 1, 0, 1, 1, 0, 1, 1, 1, 1, 0, 1, 1, 0, 0]

/-- C3 counterexample: plaintexts `X = 0`, `Y = 1` (so `X ≤ Y`), hidden
`α = 0`, trivial sharings and a zero xor-add couple, at `λ = 110`, `n = 8`,
with the real PRG `H`.  The protocol's mask `(X - Y + α) mod 2^8` wraps to
255, the DIF evaluates its indicator at 255 instead of at `X - Y + α`, and
the reconstruction is 0 — not the claimed `1{X ≤ Y} = 1`. -/
theorem fss_comp_counterexample :
    fss_comp_reconstruct 110 8 (Hfun 110) 0 c3s00 c3s01 0 0 0 0 1 0 0 0 0 0
      ≠ (if (0 : Nat) ≤ (1 : Nat) then 1 else 0) := by
  decide

/-- A 110-bit seed whose digest has its top bit set. -/
def c6wseed : BV := [0, 1, 0, 0, 0, 1, 1, 1, 0, 0, 1, 0, 0, 0, 0, 1, 1, 0, 0, 1, 1, 0, 1, 0, 0, 0, 1, 0, 1, 1, 1, 1, 1, 1, 1, 1, 1, 1, 0, 1, 1, 0, 0, 1, 0, 0, 0, 0, 0, 0, 1, 1, 0, 1, 1, 0, 1, 1, 1, 0, 1, 1, 0, 1, 0, 0, 0, 0, 1, 0, 1, 1, 0, 0, 0, 0, 0, 1, 1, 1, 0, 0, 0, 1, 0, 0, 1, 1, 0, 1, 0, 0, 0, 0, 1, 0, 0, 1, 0, 1, 1, 1, 0, 1, 0, 1, 1, 0, 1, 1]

theorem G_output_shape_witness :
    2 ^ 255 ≤ seedDigest c6wseed ∧ 2 * (110 + 1) ≤ 256 ∧
    (Gfun 110 c6wseed = (digestBits (seedDigest c6wseed)).take (2 * (110 + 1)) ∧
     (Gfun 110 c6wseed).length = 2 * (110 + 1) ∧ isBits (Gfun 110 c6wseed)) :=
  ⟨by decide, by decide, G_output_shape 110 c6wseed (by decide) (by decide)⟩

/-- A 110-bit seed whose digest has its top bit clear
(digest `0x7d66cd37...`). -/
def c6cseed : BV := [1, 0, 1, 1, 0, 1, 1, 0, 1, 0, 1, 1, 0, 0, 1, 0, 1, 0, 0, 0, 0, 0, 1, 1, 0, 1, 1, 0, 1, 0, 0, 0, 0, 1, 0, 1, 0, 0, 1, 0, 1, 0, 0, 0, 1, 0, 0, 1, 1, 0, 0, 0, 1, 0, 0, 0, 1, 1, 0, 1, 1, 0, 0, 0, 1, 0, 1, 0, 0, 1, 0, 0, 1, 0, 0, 1, 1, 1, 0, 1, 0, 0, 0, 1, 0, 1, 0, 0, 0, 0, 1, 0, 0, 0, 0, 0, 1, 0, 0, 1, 1, 0, 1, 1, 0, 0, 0, 0, 1, 1]

/-- C6 counterexample: a concrete 110-bit seed whose SHA3-256 digest starts
with a zero bit.  `bin(int)[2:]` strips that leading zero, so the source's
`G` output is shifted: it is not the leading `2(λ+1)` bits of the digest. -/
theorem G_leading_bits_counterexample :
    c6cseed.length = 110 ∧
    Gfun 110 c6cseed ≠ (digestBits (seedDigest c6cseed)).take (2 * (110 + 1)) :=
  ⟨rfl, by decide⟩

/-- A 130-bit seed: at `λ = 130` the requested `G` width `2(λ+1) = 262`
exceeds the 256 digest bits. -/
def c7seed : BV := [0, 1, 1, 1, 1, 1, 0, 1, 1, 1, 0, 0, 0, 1, 0, 0, 1, 1, 1, 0, 0, 1, 0, 1, 0, 1, 0, 0, 1, 1, 0, 1, 0, 0, 1, 1, 0, 1, 0, 1, 0, 1, 0, 1, 1, 1, 0, 0, 0, 0, 0, 0, 1, 1, 1, 0, 0, 0, 1, 1, 0, 1, 1, 1, 1, 1, 1, 1, 0, 0, 1, 1, 1, 0, 1, 1, 1, 0, 1, 1, 1, 1, 0, 0, 1, 0, 1, 1, 1, 1, 0, 1, 0, 0, 1, 0, 1, 0, 1, 0, 0, 0, 1, 1, 1, 1, 0, 0, 0, 1, 0, 0, 1, 1, 1, 1, 0, 1, 1, 1, 0, 1, 0, 1, 0, 0, 0, 0, 0, 1]

theorem G_H_no_width_guard_witness :
    c7seed.length = 130 ∧ 256 < 2 * (130 + 1) ∧
    (G 130 c7seed = some (Gfun 130 c7seed) ∧ (Gfun 130 c7seed).length < 2 * (130 + 1) ∧
     H 130 c7seed = some (Hfun 130 c7seed) ∧ (Hfun 130 c7seed).length < 2 * (130 + 2)) :=
  ⟨rfl, by decide, G_H_no_width_guard 130 c7seed rfl (by decide)⟩

/-- C7 counterexample: at `λ = 130` the requested widths (262 for `G`, 264
for `H`) exceed 256, yet neither expander raises: both return (`some`) a
truncated 256-bit output. -/
theorem G_width_guard_counterexample :
    (G 130 c7seed).isSome = true ∧ (H 130 c7seed).isSome = true ∧
    (G 130 c7seed).map List.length = some 256 ∧
    (H 130 c7seed).map List.length = some 256 := by
  refine ⟨by decide, by decide, by decide, by decide⟩
